import Mathlib

/-!
# Verification of the webgraph-rs BVGraph decoder and LLP reordering engine

A shallow embedding of the decoder and reordering code of the repository:

* the degree-only decoder `WebgraphDegreesIter` (`src/webgraph/reader_degrees.rs`),
* the sequential successor decoder `WebgraphSequentialIter`
  (`src/webgraph/reader_sequential.rs`),
* the `combine` and `invert_in_place` functions of the LLP engine
  (`src/algo/llp/mod.rs`),
* the control skeleton of the `layered_label_propagation` update loop,
* the `MemWordWrite` word stream as pinned down by the fuzz harness
  (`fuzz/fuzz_targets/mem_word_write.rs`).

Machine integers (`u64`/`usize`) are modelled as `Nat`.  Subtractions in the
decoders are modelled as checked subtraction that raises a decode error on
underflow: in the Rust source those are plain `-` operations that panic in a
debug build, and the specification (§7) classifies the underflow of
`nodes_left_to_decode` as a decode error.  Rust slice indexing panics are
modelled as `outOfBounds` errors for the same reason.

The `WebGraphCodesReader` trait (whose instances live outside the excerpt) is
modelled as a list of already-decoded code words: each `read_*` call consumes
the next word of the list, and an exhausted list is the `shortRead` decode
error (a short bit read or an over-long unary code in the bit backend).
-/

/-- Decode errors of the BVGraph decoders (spec §7, kind **Decode**). -/
inductive DErr where
  | shortRead
  | underflow
  | outOfBounds
  | negativeId
deriving Repr, DecidableEq

/-- One `read_*` call of the `WebGraphCodesReader`: pop the next pre-decoded
code word, failing on an exhausted stream. -/
def readTok (s : List Nat) : Except DErr (Nat × List Nat) :=
  match s with
  | [] => .error .shortRead
  | t :: rest => .ok (t, rest)

/-- Checked `u64`/`usize` subtraction: a debug-build panic on underflow, which
spec §7 classifies as a decode error. -/
def csub (a b : Nat) : Except DErr Nat :=
  if b ≤ a then .ok (a - b) else .error .underflow

/-- Rust slice `&l[..j]`: panics (here: errors) when `j > l.len()`. -/
def sliceTo (l : List Nat) (j : Nat) : Except DErr (List Nat) :=
  if j ≤ l.length then .ok (l.take j) else .error .outOfBounds

/-- Rust slice `&l[i..j]`: panics (here: errors) unless `i ≤ j ≤ l.len()`. -/
def sliceFromTo (l : List Nat) (i j : Nat) : Except DErr (List Nat) :=
  if i ≤ j ∧ j ≤ l.length then .ok ((l.take j).drop i) else .error .outOfBounds

/-- Modelled from the spec: `nat2int` lives in `src/utils` which is not part of
the excerpt.  Spec §3/glossary: the ZigZag mapping `ℕ ↔ ℤ` used to decode the
signed offsets of interval starts and first residuals. -/
def nat2int (x : Nat) : Int :=
  if x % 2 = 0 then ((x / 2 : Nat) : Int) else -((x / 2 : Nat) : Int) - 1

/-- `(node_id as i64 + node_id_offset) as u64` guarded by the
`debug_assert!((node_id as i64 + node_id_offset) >= 0)` of
`reader_sequential.rs:103`: a negative id is a (debug) decode failure. -/
def addOffset (node_id : Nat) (off : Int) : Except DErr Nat :=
  if 0 ≤ (node_id : Int) + off then .ok ((node_id : Int) + off).toNat
  else .error .negativeId

/-- The Rust range `start..(start + delta)` collected in order. -/
def rangeList (start delta : Nat) : List Nat :=
  (List.range delta).map (fun k => start + k)

/-! ## The degree-only iterator (`src/webgraph/reader_degrees.rs`) -/

/-- State of `WebgraphDegreesIter` (`reader_degrees.rs` lines 9-16): the codes
reader is the remaining token stream, `backrefs` is the `vec![0; w + 1]` degree
window. -/
structure WebgraphDegreesIter where
  backrefs : List Nat
  node_id : Nat
  min_interval_length : Nat
  compression_window : Nat
  number_of_nodes : Nat
  stream : List Nat
deriving Repr, DecidableEq

/-- `WebgraphDegreesIter::new` (`reader_degrees.rs` lines 36-50). -/
def WebgraphDegreesIter.new (mil w N : Nat) (s : List Nat) : WebgraphDegreesIter :=
  { backrefs := List.replicate (w + 1) 0
    node_id := 0
    min_interval_length := mil
    compression_window := w
    number_of_nodes := N
    stream := s }

/-- The loop `for block_id in 1..number_of_blocks` of `next_degree`
(`reader_degrees.rs` lines 90-97), called with `cnt = number_of_blocks - 1`:
returns the final `idx`, the remaining `nodes_left_to_decode` and stream. -/
def degBlocksLoop : Nat → Nat → Nat → Nat → List Nat →
    Except DErr (Nat × Nat × List Nat)
  | 0, _, idx, left, s => .ok (idx, left, s)
  | cnt + 1, block_id, idx, left, s => do
    let (block, s) ← readTok s
    let e := idx + block + 1
    let left ← if block_id % 2 = 0 then csub left (block + 1) else .ok left
    degBlocksLoop cnt (block_id + 1) e left s

/-- The loop `for _ in 1..number_of_intervals` of `next_degree`
(`reader_degrees.rs` lines 116-122), called with `cnt = number_of_intervals - 1`. -/
def degIntervalsLoop (mil : Nat) : Nat → Nat → List Nat →
    Except DErr (Nat × List Nat)
  | 0, left, s => .ok (left, s)
  | cnt + 1, left, s => do
    let (_, s) ← readTok s
    let (dtok, s) ← readTok s
    let left ← csub left (dtok + mil)
    degIntervalsLoop mil cnt left s

/-- The loop `for _ in 1..nodes_left_to_decode` of `next_degree`
(`reader_degrees.rs` lines 131-133), called with `cnt = nodes_left_to_decode - 1`. -/
def degResidualsLoop : Nat → List Nat → Except DErr (List Nat)
  | 0, s => .ok s
  | cnt + 1, s => do
    let (_, s) ← readTok s
    degResidualsLoop cnt s

/-- The common epilogue of both exits of `next_degree` (`reader_degrees.rs`
lines 60-63 and 136-138): store the degree at slot
`node_id % compression_window` — note the modulus is `compression_window`, not
`compression_window + 1` — advance `node_id` and return the degree. -/
def WebgraphDegreesIter.finish (it : WebgraphDegreesIter) (degree : Nat)
    (s : List Nat) : Nat × WebgraphDegreesIter :=
  (degree,
    { it with
      backrefs := it.backrefs.set (it.node_id % it.compression_window) degree
      node_id := it.node_id + 1
      stream := s })

/-- The copy phase of `next_degree` (`reader_degrees.rs` lines 71-102): when
`ref_delta` is non-zero, subtract the number of copied successors — computed
from the stored degree of the reference node — from `degree`; returns the
remaining `nodes_left_to_decode` and stream. -/
def degCopyPhase (backrefs : List Nat) (w node_id degree ref_delta : Nat)
    (s : List Nat) : Except DErr (Nat × List Nat) :=
  if ref_delta ≠ 0 then do
    let reference_node_id ← csub node_id ref_delta
    let ref_degree := backrefs.getD (reference_node_id % w) 0
    let (number_of_blocks, s) ← readTok s
    if number_of_blocks = 0 then do
      let left ← csub degree ref_degree
      pure (left, s)
    else do
      let (idx, s) ← readTok s
      let left ← csub degree idx
      let (idx, left, s) ← degBlocksLoop (number_of_blocks - 1) 1 idx left s
      if number_of_blocks % 2 = 0 then do
        let tail ← csub ref_degree idx
        let left ← csub left tail
        pure (left, s)
      else pure (left, s)
  else pure (degree, s)

/-- The interval phase of `next_degree` (`reader_degrees.rs` lines 105-124):
subtract each interval length (plus `min_interval_length`) from the remaining
count. -/
def degIntervalPhase (mil left : Nat) (s : List Nat) :
    Except DErr (Nat × List Nat) :=
  if left ≠ 0 then do
    let (number_of_intervals, s) ← readTok s
    if number_of_intervals ≠ 0 then do
      let (_, s) ← readTok s
      let (dtok, s) ← readTok s
      let left ← csub left (dtok + mil)
      degIntervalsLoop mil (number_of_intervals - 1) left s
    else pure (left, s)
  else pure (left, s)

/-- The residual phase of `next_degree` (`reader_degrees.rs` lines 127-134):
skip the remaining `left` residual code words. -/
def degResidualPhase (left : Nat) (s : List Nat) : Except DErr (List Nat) :=
  if left ≠ 0 then do
    let (_, s) ← readTok s
    degResidualsLoop (left - 1) s
  else pure s

/-- The payload-skipping part of `next_degree` (`reader_degrees.rs` lines
66-134), for a non-zero `degree`: consumes the reference, block, interval and
residual code words and returns the remaining stream. -/
def WebgraphDegreesIter.decode_rest (it : WebgraphDegreesIter) (degree : Nat)
    (s : List Nat) : Except DErr (List Nat) := do
  let (ref_delta, s) ← readTok s
  let (left, s) ←
    degCopyPhase it.backrefs it.compression_window it.node_id degree ref_delta s
  let (left, s) ← degIntervalPhase it.min_interval_length left s
  degResidualPhase left s

/-- `WebgraphDegreesIter::next_degree` (`reader_degrees.rs` lines 57-139). -/
def WebgraphDegreesIter.next_degree (it : WebgraphDegreesIter) :
    Except DErr (Nat × WebgraphDegreesIter) := do
  let (degree, s) ← readTok it.stream
  if degree = 0 then .ok (it.finish degree s)
  else do
    let s ← it.decode_rest degree s
    .ok (it.finish degree s)

/-- `Iterator::next` of `WebgraphDegreesIter` (`reader_degrees.rs` lines
26-32): `None` once `node_id >= number_of_nodes`, otherwise the unwrapped
`next_degree` (the bit offset of the triple is not part of the token-stream
model).  The `.unwrap()` surfaces a decode failure as the `Except.error`. -/
def WebgraphDegreesIter.iterNext (it : WebgraphDegreesIter) :
    Option (Except DErr ((Nat × Nat) × WebgraphDegreesIter)) :=
  if it.node_id ≥ it.number_of_nodes then none
  else some (it.next_degree.map (fun p => ((it.node_id, p.1), p.2)))

/-- Decode the degrees of `n` consecutive nodes with `next_degree`. -/
def degRun : Nat → WebgraphDegreesIter →
    Except DErr (List Nat × WebgraphDegreesIter)
  | 0, it => .ok ([], it)
  | n + 1, it => do
    let (d, it') ← it.next_degree
    let (ds, it'') ← degRun n it'
    .ok (d :: ds, it'')

/-! ## The sequential successor iterator (`src/webgraph/reader_sequential.rs`) -/

/-- Modelled from the spec: `CircularBuffer` (`src/webgraph/circular_buffer.rs`)
is declared in `src/webgraph/mod.rs` but its implementation is not part of the
excerpt.  Spec §3: a circular buffer of size `windowsize + 1` holding the last
`windowsize + 1` fully decoded successor lists, indexed by
`node_id mod (windowsize + 1)`, together with the id of the next node to be
decoded (`get_end_node_id`). -/
structure CircularBuffer where
  data : List (List Nat)
  end_node_id : Nat
deriving Repr, DecidableEq

/-- `CircularBuffer::new`: `len` empty slots, end node id 0. -/
def CircularBuffer.new (len : Nat) : CircularBuffer :=
  { data := List.replicate len [], end_node_id := 0 }

/-- `CircularBuffer::get(node_id)`: the slot at `node_id mod size`. -/
def CircularBuffer.get (b : CircularBuffer) (node_id : Nat) : List Nat :=
  b.data.getD (node_id % b.data.length) []

/-- `CircularBuffer::push`: store the decoded list of node `end_node_id` at
slot `end_node_id mod size` and advance the end node id. -/
def CircularBuffer.push (b : CircularBuffer) (v : List Nat) : CircularBuffer :=
  { data := b.data.set (b.end_node_id % b.data.length) v
    end_node_id := b.end_node_id + 1 }

/-- State of `WebgraphSequentialIter` (`reader_sequential.rs` lines 8-13). -/
structure WebgraphSequentialIter where
  backrefs : CircularBuffer
  min_interval_length : Nat
  number_of_nodes : Nat
  stream : List Nat
deriving Repr, DecidableEq

/-- `WebgraphSequentialIter::new` (`reader_sequential.rs` lines 21-33): the
circular buffer has `compression_window + 1` slots. -/
def WebgraphSequentialIter.new (mil w N : Nat) (s : List Nat) :
    WebgraphSequentialIter :=
  { backrefs := CircularBuffer.new (w + 1)
    min_interval_length := mil
    number_of_nodes := N
    stream := s }

/-- The loop `for block_id in 1..number_of_blocks` of
`get_successors_iter_priv` (`reader_sequential.rs` lines 81-88), called with
`cnt = number_of_blocks - 1`: copies the blocks of even index. -/
def seqBlocksLoop (neighbours : List Nat) : Nat → Nat → Nat → List Nat →
    List Nat → Except DErr (Nat × List Nat × List Nat)
  | 0, _, idx, results, s => .ok (idx, results, s)
  | cnt + 1, block_id, idx, results, s => do
    let (block, s) ← readTok s
    let e := idx + block + 1
    let results ←
      if block_id % 2 = 0 then do
        let seg ← sliceFromTo neighbours idx e
        pure (results ++ seg)
      else pure results
    seqBlocksLoop neighbours cnt (block_id + 1) e results s

/-- The loop `for _ in 1..number_of_intervals` of `get_successors_iter_priv`
(`reader_sequential.rs` lines 111-119), called with
`cnt = number_of_intervals - 1`. -/
def seqIntervalsLoop (mil : Nat) : Nat → Nat → List Nat → List Nat →
    Except DErr (List Nat × List Nat)
  | 0, _, results, s => .ok (results, s)
  | cnt + 1, start, results, s => do
    let (gap, s) ← readTok s
    let start := start + 1 + gap
    let (dtok, s) ← readTok s
    let delta := dtok + mil
    seqIntervalsLoop mil cnt (start + delta) (results ++ rangeList start delta) s

/-- The loop `for _ in 1..nodes_left_to_decode` of `get_successors_iter_priv`
(`reader_sequential.rs` lines 131-134), called with
`cnt = nodes_left_to_decode - 1`. -/
def seqResidualsLoop : Nat → Nat → List Nat → List Nat →
    Except DErr (List Nat × List Nat)
  | 0, _, results, s => .ok (results, s)
  | cnt + 1, extra, results, s => do
    let (gap, s) ← readTok s
    let extra := extra + 1 + gap
    seqResidualsLoop cnt extra (results ++ [extra]) s

/-- The copy phase of `get_successors_iter_priv` (`reader_sequential.rs` lines
61-93): when `ref_delta` is non-zero, copy the whole reference list or its
even-indexed blocks (plus the tail when the block count is even). -/
def seqCopyPhase (backrefs : CircularBuffer) (node_id ref_delta : Nat)
    (s : List Nat) : Except DErr (List Nat × List Nat) :=
  if ref_delta ≠ 0 then do
    let reference_node_id ← csub node_id ref_delta
    let neighbours := backrefs.get reference_node_id
    let (number_of_blocks, s) ← readTok s
    if number_of_blocks = 0 then pure (neighbours, s)
    else do
      let (idx, s) ← readTok s
      let head ← sliceTo neighbours idx
      let (idx, results, s) ←
        seqBlocksLoop neighbours (number_of_blocks - 1) 1 idx head s
      if number_of_blocks % 2 = 0 then do
        let tail ← sliceFromTo neighbours idx neighbours.length
        pure (results ++ tail, s)
      else pure (results, s)
  else pure (([] : List Nat), s)

/-- The interval phase of `get_successors_iter_priv` (`reader_sequential.rs`
lines 95-121): when successors are still missing, decode the interval runs. -/
def seqIntervalPhase (mil node_id left1 : Nat) (results : List Nat)
    (s : List Nat) : Except DErr (List Nat × List Nat) :=
  if left1 ≠ 0 then do
    let (number_of_intervals, s) ← readTok s
    if number_of_intervals ≠ 0 then do
      let (stok, s) ← readTok s
      let start ← addOffset node_id (nat2int stok)
      let (dtok, s) ← readTok s
      let delta := dtok + mil
      seqIntervalsLoop mil (number_of_intervals - 1) (start + delta)
        (results ++ rangeList start delta) s
    else pure (results, s)
  else pure (results, s)

/-- The residual phase of `get_successors_iter_priv` (`reader_sequential.rs`
lines 123-135): decode the remaining `left2` residual gaps. -/
def seqResidualPhase (node_id left2 : Nat) (results : List Nat)
    (s : List Nat) : Except DErr (List Nat × List Nat) :=
  if left2 ≠ 0 then do
    let (rtok, s) ← readTok s
    let extra ← addOffset node_id (nat2int rtok)
    seqResidualsLoop (left2 - 1) extra (results ++ [extra]) s
  else pure (results, s)

/-- `get_successors_iter_priv` (`reader_sequential.rs` lines 47-139) for node
`node_id`: returns the decoded (sorted) successor list and the remaining
stream.  `results` starts empty (the recycled vector handed over by
`CircularBuffer::take`). -/
def get_successors_priv (mil : Nat) (backrefs : CircularBuffer) (node_id : Nat)
    (s : List Nat) : Except DErr (List Nat × List Nat) := do
  let (degree, s) ← readTok s
  if degree = 0 then .ok ([], s)
  else do
    let (ref_delta, s) ← readTok s
    let (results, s) ← seqCopyPhase backrefs node_id ref_delta s
    let left1 ← csub degree results.length
    let (results, s) ← seqIntervalPhase mil node_id left1 results s
    let left2 ← csub degree results.length
    let (results, s) ← seqResidualPhase node_id left2 results s
    .ok (results.insertionSort (· ≤ ·), s)

/-- `WebgraphSequentialIter::next_successors` (`reader_sequential.rs` lines
40-45): decode node `get_end_node_id()` and push the list into the window. -/
def WebgraphSequentialIter.next_successors (it : WebgraphSequentialIter) :
    Except DErr (List Nat × WebgraphSequentialIter) := do
  let node_id := it.backrefs.end_node_id
  let (res, s) ← get_successors_priv it.min_interval_length it.backrefs node_id it.stream
  .ok (res, { it with backrefs := it.backrefs.push res, stream := s })

/-- `Iterator::next` of `WebgraphSequentialIter` (`reader_sequential.rs` lines
145-153): note the guard is `node_id > number_of_nodes`, and the decode result
is `.unwrap()`ed, so a failing decode is surfaced here as the `Except.error`
(a panic in Rust). -/
def WebgraphSequentialIter.iterNext (it : WebgraphSequentialIter) :
    Option (Except DErr (List Nat × WebgraphSequentialIter)) :=
  if it.backrefs.end_node_id > it.number_of_nodes then none
  else some it.next_successors

/-- Decode the successor lists of `n` consecutive nodes with
`next_successors`. -/
def seqRun : Nat → WebgraphSequentialIter →
    Except DErr (List (List Nat) × WebgraphSequentialIter)
  | 0, it => .ok ([], it)
  | n + 1, it => do
    let (l, it') ← it.next_successors
    let (ls, it'') ← seqRun n it'
    .ok (l :: ls, it'')

/-- Drive `Iterator::next` of the sequential iterator until it yields `None`
(normal termination), fails (panicking unwrap), or `fuel` runs out: returns the
emitted lists and the failure, if any. -/
def seqCollect : Nat → WebgraphSequentialIter → List (List Nat) × Option DErr
  | 0, _ => ([], none)
  | f + 1, it =>
    match it.iterNext with
    | none => ([], none)
    | some (.error e) => ([], some e)
    | some (.ok (l, it')) =>
      let p := seqCollect f it'
      (l :: p.1, p.2)

/-- The reference offset a record announces: its second code word, read only
when the first (the outdegree) is non-zero.  Used to state the spec §3
well-formedness requirement `r ≤ windowsize` on a raw stream. -/
def refOf (s : List Nat) : Nat :=
  match s with
  | [] => 0
  | d :: rest => if d = 0 then 0 else rest.getD 0 0

/-- Spec §3 well-formedness of a stream for `n` nodes against window `w`: each
record that decodes successfully announces a reference offset `≤ w`
(`require r ≤ windowsize`). -/
def seqRefsBounded (w : Nat) : Nat → WebgraphSequentialIter → Bool
  | 0, _ => true
  | n + 1, it =>
    decide (refOf it.stream ≤ w) &&
      match it.next_successors with
      | .ok (_, it') => seqRefsBounded w n it'
      | .error _ => true

/-! ## `combine` (`src/algo/llp/mod.rs` lines 314-337) -/

/-- The sort key of the `par_sort_by` comparator in `combine`
(`llp/mod.rs` lines 318-322): `(result[labels[x]], labels[x], result[x])`. -/
def combineKey (result labels : List Nat) (x : Nat) : Nat × Nat × Nat :=
  (result.getD (labels.getD x 0) 0, labels.getD x 0, result.getD x 0)

/-- Lexicographic order on the sort key, as produced by
`cmp.then_with(..).then_with(..)`. -/
def keyLe (a b : Nat × Nat × Nat) : Prop :=
  a.1 < b.1 ∨ (a.1 = b.1 ∧ (a.2.1 < b.2.1 ∨ (a.2.1 = b.2.1 ∧ a.2.2 ≤ b.2.2)))

instance : DecidableRel keyLe := fun a b => by
  unfold keyLe
  infer_instance

/-- The index sort of `combine` (`llp/mod.rs` lines 316-322): `temp_perm` is
re-initialised to the identity and sorted by `combineKey`.  The unstable
parallel `par_sort_by` is modelled by a sequential insertion sort with the same
comparator: one of the orders the unstable sort may produce. -/
def combineSortedIdx (result labels : List Nat) : List Nat :=
  List.insertionSort (fun a b => keyLe (combineKey result labels a) (combineKey result labels b))
    (List.range result.length)

/-- The relabeling loop of `combine` (`llp/mod.rs` lines 327-334): walk the
sorted indices, bump `curr_label` whenever the pair
`(result[temp_perm[i]], labels[temp_perm[i]])` changes, and write the label
into `result[temp_perm[i]]`. -/
def combineLoop (labels : List Nat) : List Nat → List Nat → Nat × Nat → Nat →
    List Nat × Nat
  | [], result, _, curr_label => (result, curr_label)
  | t :: rest, result, prev_labels, curr_label =>
    let curr_labels := (result.getD t 0, labels.getD t 0)
    if prev_labels ≠ curr_labels then
      combineLoop labels rest (result.set t (curr_label + 1)) curr_labels (curr_label + 1)
    else
      combineLoop labels rest (result.set t curr_label) prev_labels curr_label

/-- `combine` (`llp/mod.rs` lines 314-337).  Returns
`(result, temp_perm, label count)`; `none` models the index panic on empty
input (`temp_perm[0]` with `temp_perm.len() == 0`).  The incoming `temp_perm`
contents are irrelevant (the function fully re-initialises it; in the driver it
always has the same length as `result`), so the model rebuilds it as
`List.range result.length`.  Note line 325 of the source: `temp_perm[0] =
curr_label;` writes the first label into `temp_perm`, not into
`result[temp_perm[0]]`. -/
def combine (result labels : List Nat) : Option (List Nat × List Nat × Nat) :=
  match combineSortedIdx result labels with
  | [] => none
  | t0 :: rest =>
    let prev_labels := (result.getD t0 0, labels.getD t0 0)
    let temp_perm := (0 : Nat) :: rest
    let p := combineLoop labels rest result prev_labels 0
    some (p.1, temp_perm, p.2 + 1)

/-- The relabeling loop as the claim states it: the same walk, but the first
sorted index receives label 0 in `result` (this is the only difference from
`combine`; definition written from the claim to exhibit the divergence). -/
def combineClaimed (result labels : List Nat) : Option (List Nat × Nat) :=
  match combineSortedIdx result labels with
  | [] => none
  | t0 :: rest =>
    let prev_labels := (result.getD t0 0, labels.getD t0 0)
    let p := combineLoop labels rest (result.set t0 0) prev_labels 0
    some (p.1, p.2 + 1)

/-- The number of distinct values of a list (distinct labels of a labelling). -/
def distinctCount (l : List Nat) : Nat := l.toFinset.card

/-! ## `invert_in_place` (`src/algo/llp/mod.rs` lines 340-359) -/

/-- Rust `!i` on a `usize` holding a small value, reinterpreted through the
`(i as isize) < 0` sign test: two's-complement bitwise not, i.e. `-1 - i`. -/
def inot (x : Int) : Int := -1 - x

/-- The inner cycle walk of `invert_in_place` (`llp/mod.rs` lines 346-356),
with fuel (the walk needs at most one step per cycle element).  `n` is the
outer index, `i` the current cycle position, `k` its predecessor. -/
def cycleLoop : Nat → List Int → Nat → Nat → Nat → List Int
  | 0, a, _, _, _ => a
  | fuel + 1, a, n, i, k =>
    let j := a.getD i 0
    let a' := a.set i (inot k)
    if j = (n : Int) then a'.set n (i : Int)
    else cycleLoop fuel a' n (j.toNat) i

/-- One iteration of the outer loop of `invert_in_place` (`llp/mod.rs` lines
341-358) at index `n`. -/
def invertStep (a : List Int) (n : Nat) : List Int :=
  let i := a.getD n 0
  if i < 0 then a.set n (inot i)
  else if i ≠ (n : Int) then cycleLoop (a.length + 1) a n i.toNat n
  else a

/-- `invert_in_place` (`llp/mod.rs` lines 340-359): walk the cycles, using the
sign bit as visited marker. -/
def invert_in_place (a : List Int) : List Int :=
  (List.range a.length).foldl invertStep a

/-! ## `MemWordWrite` (spec §4.A and `fuzz/fuzz_targets/mem_word_write.rs`) -/

/-- Modelled from the spec: the `MemWordWrite` word stream lives in
`src/backends/word_stream.rs`, which `src/backends/mod.rs` declares but the
excerpt does not contain.  The model follows spec §4.A and the reference model
the fuzz harness `fuzz/fuzz_targets/mem_word_write.rs` keeps in lock-step with
the real implementation: a word buffer plus a word cursor. -/
structure MemWordWrite where
  data : List Nat
  position : Nat
deriving Repr, DecidableEq

/-- `len()`: number of words in the buffer. -/
def MemWordWrite.len (s : MemWordWrite) : Nat := s.data.length

/-- `get_position()`: the cursor, in words. -/
def MemWordWrite.get_position (s : MemWordWrite) : Nat := s.position

/-- `set_position(i)`: fails silently when `i` is out of range — the position
is left unchanged (spec §4.A, §7; the fuzz harness updates its model index only
when `buffer.get(word_index).is_some()`). -/
def MemWordWrite.set_position (s : MemWordWrite) (i : Nat) : MemWordWrite :=
  if i < s.data.length then { s with position := i } else s

/-- `read_next_word()`: the word under the cursor, advancing; fails at the end
(`none`) with the stream unchanged. -/
def MemWordWrite.read_next_word (s : MemWordWrite) : Option (Nat × MemWordWrite) :=
  match s.data[s.position]? with
  | some w => some (w, { s with position := s.position + 1 })
  | none => none

/-- `write_word(w)`: overwrite the word under the cursor and advance; fails at
the end (`none`). -/
def MemWordWrite.write_word (s : MemWordWrite) (w : Nat) : Option MemWordWrite :=
  if s.position < s.data.length then
    some { data := s.data.set s.position w, position := s.position + 1 }
  else none

/-! ## The `layered_label_propagation` update loop (`src/algo/llp/mod.rs`) -/

/-- The state reached after `k` iterations of the update loop starting at
iteration `u` in state `st`, for an iteration body `body` (the parallel
relabeling pass, lines 119-221 of `llp/mod.rs`, abstracted as a function from
the iteration index and state to the new state and the observations
`(gain, modified, ...)` the stopping test reads). -/
def llpIterState {σ Obs : Type} (body : Nat → σ → σ × Obs) (u : Nat) (st : σ) :
    Nat → σ
  | 0 => st
  | k + 1 => (body (u + k) (llpIterState body u st k)).1

/-- The exit test of the update loop (`llp/mod.rs` lines 223-232):
`predicate.eval(..) || modified == 0`. -/
def llpStop {Obs : Type} (pred : Nat → Obs → Bool) (modified : Obs → Nat)
    (u : Nat) (o : Obs) : Bool :=
  pred u o || modified o == 0

/-- The update loop `for update in 0.. { .. }` of `layered_label_propagation`
(`llp/mod.rs` lines 116-233), with fuel: runs `body`, evaluates the stopping
test once on the iteration's observations, and either exits or continues with
the next iteration.  Returns the final state and the per-iteration trace of
`(update index, observations)` pairs handed to the stopping test. -/
def llpUpdateLoop {σ Obs : Type} (body : Nat → σ → σ × Obs)
    (pred : Nat → Obs → Bool) (modified : Obs → Nat) :
    Nat → Nat → σ → σ × List (Nat × Obs)
  | 0, _, st => (st, [])
  | fuel + 1, u, st =>
    let p := body u st
    if llpStop pred modified u p.2 then (p.1, [(u, p.2)])
    else
      let q := llpUpdateLoop body pred modified fuel (u + 1) p.1
      (q.1, (u, p.2) :: q.2)

/-! ## The LLP label store and node visit (`src/algo/llp/mod.rs` lines 137-204) -/

/-- Modelled from the spec: the label store (`src/algo/llp/label_store.rs`) is
declared in `llp/mod.rs` but its implementation is not part of the excerpt.
Spec §4.G: two arrays, `label[v]` and `volume[ℓ]`. -/
structure LabelStore where
  labels : List Nat
  volumes : List Nat
deriving Repr, DecidableEq

/-- `LabelStore::init` (spec §4.G): `label[v] = v`, `volume[ℓ] = 1`. -/
def LabelStore.init (n : Nat) : LabelStore :=
  { labels := List.range n, volumes := List.replicate n 1 }

/-- `label(v)`. -/
def LabelStore.label (st : LabelStore) (v : Nat) : Nat := st.labels.getD v 0

/-- `volume(ℓ)`. -/
def LabelStore.volume (st : LabelStore) (ℓ : Nat) : Nat := st.volumes.getD ℓ 0

/-- `set(v, ℓ)` (spec §4.G): when the label changes, move one unit of volume
from the old label to the new one and store the new label. -/
def LabelStore.set (st : LabelStore) (v ℓ : Nat) : LabelStore :=
  let old := st.label v
  if old = ℓ then st
  else
    let vols := st.volumes.set old (st.volume old - 1)
    { labels := st.labels.set v ℓ
      volumes := vols.set ℓ (vols.getD ℓ 0 + 1) }

/-- The graph interface the LLP worker uses (the `RandomAccessGraph` trait;
its implementations live outside the excerpt): per-node outdegree and
successor list. -/
structure LLPGraph where
  outdegree : Nat → Nat
  successors : Nat → List Nat

/-- The per-worker mutable state of one `layered_label_propagation` update
pass: the label store, the `can_change` frontier, the `modified` counter, and a
ghost trace `set_calls` recording every `label_store.set` invocation. -/
structure LLPState where
  store : LabelStore
  can_change : List Bool
  modified : Nat
  set_calls : List (Nat × Nat)
deriving Repr, DecidableEq

/-- The state right after the per-gamma reset (`llp/mod.rs` lines 111-114:
`label_store.init()` and `can_change[v] = true`) and the per-iteration
`modified = 0` (line 130). -/
def llpInitState (n : Nat) : LLPState :=
  { store := LabelStore.init n
    can_change := List.replicate n true
    modified := 0
    set_calls := [] }

/-- One node visit of the update pass (`llp/mod.rs` lines 137-204): skip a
node that cannot change; clear its `can_change` bit; skip it if its outdegree
is zero (line 150) — only then compute the winning label (lines 154-193,
abstracted as `pick`, covering the score map, the majority set, and the RNG tie
break) and, when the winner differs from the current label, bump `modified`,
re-enable the successors and update the label store (lines 196-202). -/
def llpVisit (G : LLPGraph) (pick : Nat → LLPState → Nat) (st : LLPState)
    (node : Nat) : LLPState :=
  if ¬ (st.can_change.getD node false) then st
  else
    let st1 := { st with can_change := st.can_change.set node false }
    if G.outdegree node = 0 then st1
    else
      let curr_label := st1.store.label node
      let next_label := pick node st1
      if next_label ≠ curr_label then
        { store := st1.store.set node next_label
          can_change := (G.successors node).foldl (fun l s => l.set s true) st1.can_change
          modified := st1.modified + 1
          set_calls := st1.set_calls ++ [(node, next_label)] }
      else st1

/-- A whole update pass, as the sequence of node visits the workers perform
(the parallel interleaving visits each scheduled node once, in some order
`visits`). -/
def llpPass (G : LLPGraph) (pick : Nat → LLPState → Nat) (st : LLPState)
    (visits : List Nat) : LLPState :=
  visits.foldl (llpVisit G pick) st

/-! ## Helper lemmas -/

deriving instance DecidableEq for Except

theorem getD_set_eq {α : Type} (l : List α) (i : Nat) (a d : α)
    (h : i < l.length) : (l.set i a).getD i d = a := by
  rw [List.getD_eq_getElem?_getD, List.getElem?_set_self h]
  rfl

theorem getD_set_ne {α : Type} (l : List α) (i j : Nat) (a d : α)
    (h : i ≠ j) : (l.set i a).getD j d = l.getD j d := by
  rw [List.getD_eq_getElem?_getD, List.getElem?_set_ne h,
    ← List.getD_eq_getElem?_getD]

theorem getD_range (n i : Nat) (h : i < n) : (List.range n).getD i 0 = i := by
  rw [List.getD_eq_getElem?_getD, List.getElem?_eq_getElem (by simpa using h),
    List.getElem_range]
  rfl

/-! ## C7: word-stream operations -/

/-- C7: `read_next_word` returns the buffer word at the current position and
advances, failing at the end with the state unchanged; `write_word` overwrites
the current slot and advances, failing at the end; `set_position(i)` with `i`
out of range fails silently leaving the position unchanged; and `write_word`
at position `i` followed by `read_next_word` at position `i` returns the
written word. -/
theorem memWordWrite_ops_spec (s : MemWordWrite) (i w : Nat) :
    (s.position < s.data.length →
      s.read_next_word =
        some (s.data.getD s.position 0, { s with position := s.position + 1 })) ∧
    (s.data.length ≤ s.position → s.read_next_word = none) ∧
    (s.position < s.data.length →
      s.write_word w =
        some { data := s.data.set s.position w, position := s.position + 1 }) ∧
    (s.data.length ≤ s.position → s.write_word w = none) ∧
    (s.data.length ≤ i → s.set_position i = s) ∧
    (i < s.data.length →
      ((s.set_position i).write_word w).bind
          (fun s' => (s'.set_position i).read_next_word) =
        some (w, { data := s.data.set i w, position := i + 1 })) := by
  refine ⟨fun h => ?_, fun h => ?_, fun h => ?_, fun h => ?_, fun h => ?_, fun h => ?_⟩
  · rw [MemWordWrite.read_next_word, List.getElem?_eq_getElem h,
      List.getD_eq_getElem?_getD, List.getElem?_eq_getElem h]
    rfl
  · rw [MemWordWrite.read_next_word, List.getElem?_eq_none (by omega)]
  · rw [MemWordWrite.write_word, if_pos h]
  · rw [MemWordWrite.write_word, if_neg (by omega)]
  · rw [MemWordWrite.set_position, if_neg (by omega)]
  · rw [MemWordWrite.set_position, if_pos h, MemWordWrite.write_word]
    simp only [if_pos h, Option.bind_some, Option.some_bind]
    rw [MemWordWrite.set_position, if_pos (by simpa using h),
      MemWordWrite.read_next_word]
    simp only [List.getElem?_set_self (by simpa using h)]

/-- Witness for C7 at buffer `[5, 6]`, position 0, `i = 1`, `w = 9`. -/
theorem memWordWrite_ops_spec_witness :
    (MemWordWrite.mk [5, 6] 0).read_next_word = some (5, MemWordWrite.mk [5, 6] 1) ∧
    (((MemWordWrite.mk [5, 6] 0).set_position 1).write_word 9).bind
        (fun s' => (s'.set_position 1).read_next_word) =
      some (9, MemWordWrite.mk [5, 9] 2) := by
  refine ⟨?_, ?_⟩
  · exact (memWordWrite_ops_spec (MemWordWrite.mk [5, 6] 0) 1 9).1 (by decide)
  · exact (memWordWrite_ops_spec (MemWordWrite.mk [5, 6] 0) 1 9).2.2.2.2.2 (by decide)

/-! ## C4: the `combine` relabeling -/

/-- C4: at `result = [1, 1]`, `labels = [0, 0]` every index has the same sort
key, so the claimed relabeling assigns label 0 to both indices
(`combineClaimed`, written from the claim); the code instead leaves
`result[temp_perm[0]]` untouched — line 325 of `llp/mod.rs` writes the label
into `temp_perm[0]` — and returns `result = [1, 0]`. -/
theorem combine_first_slot_divergence :
    combine [1, 1] [0, 0] = some ([1, 0], [0, 1], 1) ∧
    combineClaimed [1, 1] [0, 0] = some ([0, 0], 1) ∧
    ([1, 0] : List Nat) ≠ [0, 0] := by
  refine ⟨by decide, by decide, by decide⟩

/-! ## C2: the sequential iterator guard -/

/-- C2: on the well-formed one-record stream of the graph with `N = 1` node
and `M = 0` arcs, iterating `Iterator::next` emits the single successor list
and then — because the guard at `reader_sequential.rs:147` is
`node_id > number_of_nodes`, not `>=` as in the degrees iterator — attempts to
decode a second, nonexistent record instead of returning `None`, and the
`.unwrap()` aborts on the decode error. -/
theorem seq_iter_guard_off_by_one :
    seqCollect 5 (WebgraphSequentialIter.new 4 7 1 [0]) =
      ([[]], some DErr.shortRead) := by
  decide

/-! ## C1: the back-reference window indexing -/

/-- C1 counterexample: with `windowsize = 2`, decode the three-record stream
`[0], [0], [1, 0, 0, 5]` (degrees 0, 0, 1) with the degree-only iterator.  The
claim puts node 2's degree at slot `2 mod (windowsize + 1) = 2`; the code
(`reader_degrees.rs:136`) stores it at `2 mod windowsize = 0`, so slot 2 still
holds 0 while node 2 has degree 1. -/
theorem degrees_window_slot_not_mod_wplus1 :
    degRun 3 (WebgraphDegreesIter.new 4 2 3 [0, 0, 1, 0, 0, 5]) =
      .ok ([0, 0, 1], ⟨[1, 0, 0], 3, 4, 2, 3, []⟩) ∧
    (WebgraphDegreesIter.mk [1, 0, 0] 3 4 2 3 []).backrefs.getD (2 % (2 + 1)) 0 ≠
      ([0, 0, 1] : List Nat).getD 2 0 := by
  refine ⟨by decide, by decide⟩

/-! ## C6: error surfacing -/

/-- C6 counterexample: with `windowsize = 1`, node 2 announces reference
offset 2, outside the window; the claim calls this a decode error that
terminates iteration, but the degree-only iterator performs no window check
(`reader_degrees.rs:73-75`): it silently reads the stale slot
`(2 - 2) mod 1 = 0` and the decode succeeds. -/
theorem out_of_window_reference_not_detected :
    degRun 3 (WebgraphDegreesIter.new 4 1 3 [0, 0, 1, 2, 0, 0, 5]) =
      .ok ([0, 0, 1], ⟨[1, 0], 3, 4, 1, 3, []⟩) ∧
    refOf [1, 2, 0, 0, 5] = 2 ∧ 1 < 2 := by
  refine ⟨by decide, by decide, by decide⟩

/-- C6 (amended): a short read — an exhausted code-word stream, covering short
bit reads and over-long unary codes of the bit backend — surfaces from
`next_degree` and `next_successors` as a terminal decode error (the `.unwrap()`
in `Iterator::next` aborts, so no further `next` call is possible); references
outside the window are *not* detected (see the counterexample). -/
theorem short_read_terminal_error (itd : WebgraphDegreesIter)
    (its : WebgraphSequentialIter) (hd : itd.stream = [])
    (hs : its.stream = []) :
    itd.next_degree = .error .shortRead ∧
    its.next_successors = .error .shortRead := by
  constructor
  · rw [WebgraphDegreesIter.next_degree, hd]
    rfl
  · rw [WebgraphSequentialIter.next_successors, get_successors_priv, hs]
    rfl

/-- Witness for C6 at concrete empty-stream iterator states. -/
theorem short_read_terminal_error_witness :
    (WebgraphDegreesIter.new 4 7 3 []).next_degree = .error .shortRead ∧
    (WebgraphSequentialIter.new 4 7 3 []).next_successors = .error .shortRead :=
  short_read_terminal_error (WebgraphDegreesIter.new 4 7 3 [])
    (WebgraphSequentialIter.new 4 7 3 []) rfl rfl


theorem llpIterState_shift {σ Obs : Type} (body : Nat → σ → σ × Obs) (u : Nat)
    (st : σ) (k : Nat) :
    llpIterState body (u + 1) (body u st).1 k = llpIterState body u st (k + 1) := by
  induction k with
  | zero => simp [llpIterState]
  | succ k ih =>
    have huk : u + 1 + k = u + (k + 1) := by omega
    simp only [llpIterState, ih, huk]

/-- C9: within one gamma, iteration `u + k` of the update loop runs exactly
when every earlier iteration of the run failed the exit test
`predicate.eval(..) || modified == 0` (`llp/mod.rs` lines 223-232): the trace
contains one entry — one evaluation of the stopping predicate — per executed
iteration, in order; an entry is followed by another iff its exit test is
false; and when the loop exits before the fuel bound, the last entry's exit
test is true, so the loop exits only then.  There is no mid-iteration exit. -/
theorem llpUpdateLoop_stop_iff {σ Obs : Type} (body : Nat → σ → σ × Obs)
    (pred : Nat → Obs → Bool) (modified : Obs → Nat) (fuel u : Nat) (st : σ)
    (hfuel : 0 < fuel) :
    (llpUpdateLoop body pred modified fuel u st).2 ≠ [] ∧
    (llpUpdateLoop body pred modified fuel u st).2.length ≤ fuel ∧
    ∀ k, k < (llpUpdateLoop body pred modified fuel u st).2.length →
      ((llpUpdateLoop body pred modified fuel u st).2[k]? =
        some (u + k, (body (u + k) (llpIterState body u st k)).2)) ∧
      (k + 1 < (llpUpdateLoop body pred modified fuel u st).2.length →
        llpStop pred modified (u + k)
          (body (u + k) (llpIterState body u st k)).2 = false) ∧
      (k + 1 = (llpUpdateLoop body pred modified fuel u st).2.length →
        (llpUpdateLoop body pred modified fuel u st).2.length < fuel →
        llpStop pred modified (u + k)
          (body (u + k) (llpIterState body u st k)).2 = true) := by
  induction fuel generalizing u st with
  | zero => omega
  | succ fuel ih =>
    by_cases hstop : llpStop pred modified u (body u st).2 = true
    case pos =>
      have hL : llpUpdateLoop body pred modified (fuel + 1) u st =
          ((body u st).1, [(u, (body u st).2)]) := by
        simp [llpUpdateLoop, hstop]
      rw [hL]
      refine ⟨by simp, by simp, ?_⟩
      intro k hk
      simp only [List.length_singleton] at hk
      interval_cases k
      refine ⟨by simp [llpIterState], by simp, ?_⟩
      intro _ _
      simpa [llpIterState] using hstop
    case neg =>
      rw [Bool.not_eq_true] at hstop
      rcases Nat.eq_zero_or_pos fuel with hf0 | hfpos
      · subst hf0
        have hL : llpUpdateLoop body pred modified 1 u st =
            ((body u st).1, [(u, (body u st).2)]) := by
          simp [llpUpdateLoop, hstop]
        rw [hL]
        refine ⟨by simp, by simp, ?_⟩
        intro k hk
        simp only [List.length_singleton] at hk
        interval_cases k
        refine ⟨by simp [llpIterState], by simp, by simp⟩
      · have hL : (llpUpdateLoop body pred modified (fuel + 1) u st).2 =
            (u, (body u st).2) ::
              (llpUpdateLoop body pred modified fuel (u + 1) (body u st).1).2 := by
          simp [llpUpdateLoop, hstop]
        obtain ⟨hne, hlen, hent⟩ := ih (u + 1) (body u st).1 hfpos
        rw [hL]
        refine ⟨by simp, ?_, ?_⟩
        · simp only [List.length_cons]
          omega
        · intro k hk
          simp only [List.length_cons] at hk
          match k with
          | 0 =>
            refine ⟨by simp [llpIterState], ?_, ?_⟩
            · intro _
              simpa [llpIterState] using hstop
            · intro h1 _
              exfalso
              have := List.length_pos.mpr hne
              simp only [List.length_cons] at h1
              omega
          | Nat.succ k =>
            obtain ⟨he, hmid, hlast⟩ := hent k (by omega)
            have hsh : llpIterState body (u + 1) (body u st).1 k =
                llpIterState body u st (k + 1) := llpIterState_shift body u st k
            have huk : u + 1 + k = u + (k + 1) := by omega
            rw [hsh, huk] at he hmid hlast
            refine ⟨by simpa using he, ?_, ?_⟩
            · intro h
              simp only [List.length_cons] at h
              exact hmid (by omega)
            · intro h1 h2
              simp only [List.length_cons] at h1 h2
              exact hlast (by omega) (by omega)

/-- Witness for C9: a loop whose predicate fires at iteration 2. -/
theorem llpUpdateLoop_stop_iff_witness :
    (llpUpdateLoop (fun _ s => (s + 1, s)) (fun u _ => decide (u = 2))
        (fun _ => 1) 10 0 (0 : Nat)).2 ≠ [] ∧
    (llpUpdateLoop (fun _ s => (s + 1, s)) (fun u _ => decide (u = 2))
        (fun _ => 1) 10 0 (0 : Nat)).2.length ≤ 10 :=
  ⟨(llpUpdateLoop_stop_iff (fun _ s => (s + 1, s)) (fun u _ => decide (u = 2))
      (fun _ => 1) 10 0 (0 : Nat) (by decide)).1,
   (llpUpdateLoop_stop_iff (fun _ s => (s + 1, s)) (fun u _ => decide (u = 2))
      (fun _ => 1) 10 0 (0 : Nat) (by decide)).2.1⟩

/-! ## C10: zero-outdegree nodes keep their label -/

theorem llpVisit_preserves (G : LLPGraph) (pick : Nat → LLPState → Nat)
    (v : Nat) (hv : G.outdegree v = 0) (st : LLPState) (node : Nat)
    (h1 : st.store.label v = v)
    (h2 : ∀ c ∈ st.set_calls, 0 < G.outdegree c.1) :
    (llpVisit G pick st node).store.label v = v ∧
    ∀ c ∈ (llpVisit G pick st node).set_calls, 0 < G.outdegree c.1 := by
  rw [llpVisit]
  split
  · exact ⟨h1, h2⟩
  · dsimp only
    split
    · exact ⟨h1, h2⟩
    · rename_i hcc hdeg
      split
      · rename_i hne
        constructor
        · show (LabelStore.set _ node _).label v = v
          rw [LabelStore.set]
          dsimp only
          split
          · exact h1
          · rw [LabelStore.label] at h1 ⊢
            have hnv : node ≠ v := by
              intro h
              rw [h] at hdeg
              omega
            dsimp only
            rw [getD_set_ne _ _ _ _ _ hnv]
            exact h1
        · intro c hc
          simp only [List.mem_append, List.mem_singleton] at hc
          rcases hc with hc | hc
          · exact h2 c hc
          · subst hc
            dsimp only
            omega
      · exact ⟨h1, h2⟩

/-- C10: starting from the per-gamma initialisation (`label[v] = v`,
`llp/mod.rs` lines 111-114), a node `v` with outdegree 0 keeps label `v`
through any sequence of node visits of an update pass: the visit skips
zero-outdegree nodes (line 150) before choosing a winner, and every
`label_store.set` call recorded in the ghost trace targets a node of positive
outdegree (line 201). -/
theorem llp_zero_outdegree_label_fixed (G : LLPGraph)
    (pick : Nat → LLPState → Nat) (n : Nat) (visits : List Nat) (v : Nat)
    (hv : G.outdegree v = 0) (hvn : v < n) :
    (llpPass G pick (llpInitState n) visits).store.label v = v ∧
    ∀ c ∈ (llpPass G pick (llpInitState n) visits).set_calls,
      0 < G.outdegree c.1 := by
  have hgen : ∀ (l : List Nat) (st : LLPState), st.store.label v = v →
      (∀ c ∈ st.set_calls, 0 < G.outdegree c.1) →
      (llpPass G pick st l).store.label v = v ∧
      ∀ c ∈ (llpPass G pick st l).set_calls, 0 < G.outdegree c.1 := by
    intro l
    induction l with
    | nil => exact fun st a b => ⟨a, b⟩
    | cons x xs ih =>
      intro st a b
      obtain ⟨a', b'⟩ := llpVisit_preserves G pick v hv st x a b
      exact ih (llpVisit G pick st x) a' b'
  refine hgen visits (llpInitState n) ?_ (by simp [llpInitState])
  show (LabelStore.init n).label v = v
  rw [LabelStore.init, LabelStore.label]
  exact getD_range n v hvn

/-- Witness for C10: a two-node graph where node 0 has outdegree 0 and node 1
relabels to 0; node 0 keeps its label across a pass of four visits. -/
theorem llp_zero_outdegree_label_fixed_witness :
    (llpPass ⟨fun v => if v = 1 then 1 else 0, fun v => if v = 1 then [0] else []⟩
        (fun _ _ => 0) (llpInitState 2) [0, 1, 0, 1]).store.label 0 = 0 ∧
    ∀ c ∈ (llpPass ⟨fun v => if v = 1 then 1 else 0, fun v => if v = 1 then [0] else []⟩
        (fun _ _ => 0) (llpInitState 2) [0, 1, 0, 1]).set_calls,
      0 < (LLPGraph.mk (fun v => if v = 1 then 1 else 0)
        (fun v => if v = 1 then [0] else [])).outdegree c.1 :=
  llp_zero_outdegree_label_fixed
    ⟨fun v => if v = 1 then 1 else 0, fun v => if v = 1 then [0] else []⟩
    (fun _ _ => 0) 2 [0, 1, 0, 1] 0 rfl (by decide)

/-! ## C8: combine label-count monotonicity -/

def runBumps : Nat × Nat → List (Nat × Nat) → Nat
  | _, [] => 0
  | prev, p :: rest => if prev ≠ p then 1 + runBumps p rest else runBumps prev rest

theorem combineLoop_count (labels : List Nat) (rest : List Nat) :
    ∀ (result : List Nat) (prev : Nat × Nat) (c : Nat), rest.Nodup →
      (combineLoop labels rest result prev c).2 =
        c + runBumps prev (rest.map (fun t => (result.getD t 0, labels.getD t 0))) := by
  induction rest with
  | nil => intro result prev c _; simp [combineLoop, runBumps]
  | cons t rest ih =>
    intro result prev c hnd
    have htn : t ∉ rest := (List.nodup_cons.mp hnd).1
    have hnd' : rest.Nodup := (List.nodup_cons.mp hnd).2
    have hmap : ∀ x : Nat,
        rest.map (fun u => ((result.set t x).getD u 0, labels.getD u 0)) =
          rest.map (fun u => (result.getD u 0, labels.getD u 0)) := by
      intro x
      refine List.map_congr_left (fun u hu => ?_)
      have : t ≠ u := fun h => htn (h ▸ hu)
      rw [getD_set_ne _ _ _ _ _ this]
    rw [combineLoop]
    by_cases hp : prev ≠ (result.getD t 0, labels.getD t 0)
    · rw [if_pos hp, ih _ _ _ hnd', hmap]
      simp only [List.map_cons, runBumps, if_pos hp]
      omega
    · rw [if_neg hp, ih _ _ _ hnd', hmap]
      simp only [List.map_cons, runBumps, if_neg hp]

theorem card_le_one_add_runBumps (f : Nat × Nat → Nat) :
    ∀ (L : List (Nat × Nat)) (p0 : Nat × Nat),
      (((p0 :: L).map f).toFinset).card ≤ 1 + runBumps p0 L := by
  intro L
  induction L with
  | nil => intro p0; simp
  | cons p L ih =>
    intro p0
    by_cases hp : p0 ≠ p
    · have hset : ((p0 :: p :: L).map f).toFinset =
          insert (f p0) (((p :: L).map f).toFinset) := by
        simp
      have h1 := Finset.card_insert_le (f p0) (((p :: L).map f).toFinset)
      have h2 := ih p
      rw [runBumps, if_pos hp, hset]
      omega
    · push_neg at hp
      subst hp
      have h1 : ((p0 :: p0 :: L).map f).toFinset = ((p0 :: L).map f).toFinset := by
        ext x
        simp only [List.map_cons, List.mem_toFinset, List.mem_cons]
        tauto
      rw [runBumps, if_neg (by simp), h1]
      exact ih p0

theorem map_getD_range {α : Type} (l : List α) (d : α) :
    (List.range l.length).map (fun i => l.getD i d) = l := by
  apply List.ext_getElem
  · simp
  · intro i h1 h2
    simp only [List.getElem_map, List.getElem_range]
    rw [List.getD_eq_getElem?_getD, List.getElem?_eq_getElem h2]
    rfl

/-- C8: for label arrays of equal positive length, the label count returned by
`combine` is at least the number of distinct labels in `result` and at least
the number of distinct labels in `labels`: the count is the number of runs of
the pair `(result[x], labels[x])` along the sorted index order, which bounds
the number of distinct values of each component. -/
theorem combine_label_count_monotone (result labels : List Nat)
    (hlen : labels.length = result.length) (hpos : 0 < result.length)
    (R T : List Nat) (cnt : Nat)
    (h : combine result labels = some (R, T, cnt)) :
    distinctCount result ≤ cnt ∧ distinctCount labels ≤ cnt := by
  set pr : Nat → Nat × Nat := fun t => (result.getD t 0, labels.getD t 0) with hpr
  have hperm : (combineSortedIdx result labels).Perm (List.range result.length) :=
    List.perm_insertionSort _ _
  have hnodup : (combineSortedIdx result labels).Nodup :=
    hperm.symm.nodup (List.nodup_range _)
  rcases hs : combineSortedIdx result labels with _ | ⟨t0, rest⟩
  · rw [hs] at hperm
    have := hperm.length_eq
    simp at this
    omega
  · rw [hs] at hperm hnodup
    rw [combine, hs] at h
    simp only [Option.some_inj, Prod.mk.injEq] at h
    have hrest : rest.Nodup := (List.nodup_cons.mp hnodup).2
    have hcnt : cnt = 1 + runBumps (pr t0) (rest.map pr) := by
      have hc2 : (combineLoop labels rest result (pr t0) 0).2 + 1 = cnt := h.2.2
      have hc3 : (combineLoop labels rest result (pr t0) 0).2 =
          0 + runBumps (pr t0) (rest.map pr) :=
        combineLoop_count labels rest result (pr t0) 0 hrest
      omega
    have hkey : ∀ f : Nat × Nat → Nat,
        (((List.range result.length).map pr).map f).toFinset.card ≤ cnt := by
      intro f
      have hpl : ((t0 :: rest).map pr).Perm ((List.range result.length).map pr) :=
        hperm.map _
      have hcard := List.toFinset_eq_of_perm _ _ (hpl.map f)
      have hb := card_le_one_add_runBumps f (rest.map pr) (pr t0)
      rw [← List.map_cons] at hb
      rw [← hcard]
      omega
    constructor
    · have hf := hkey Prod.fst
      rw [List.map_map] at hf
      have hre : (List.range result.length).map (Prod.fst ∘ pr) = result := by
        rw [show Prod.fst ∘ pr = (fun i => result.getD i 0) from rfl]
        exact map_getD_range result 0
      rw [hre] at hf
      exact hf
    · have hf := hkey Prod.snd
      rw [List.map_map] at hf
      have hre : (List.range result.length).map (Prod.snd ∘ pr) = labels := by
        rw [show Prod.snd ∘ pr = (fun i => labels.getD i 0) from rfl]
        rw [← hlen]
        exact map_getD_range labels 0
      rw [hre] at hf
      exact hf

/-- Witness for C8 at `result = [1, 0]`, `labels = [0, 1]`. -/
theorem combine_label_count_monotone_witness :
    distinctCount [1, 0] ≤ 2 ∧ distinctCount [0, 1] ≤ 2 :=
  combine_label_count_monotone [1, 0] [0, 1] rfl (by decide) [1, 0] [0, 0] 2 (by decide)

/-! ## C1: run invariants of the back-reference windows -/

theorem next_degree_ok_shape (it : WebgraphDegreesIter) (d : Nat)
    (it' : WebgraphDegreesIter) (h : it.next_degree = .ok (d, it')) :
    it'.backrefs = it.backrefs.set (it.node_id % it.compression_window) d ∧
    it'.node_id = it.node_id + 1 ∧
    it'.min_interval_length = it.min_interval_length ∧
    it'.compression_window = it.compression_window ∧
    it'.number_of_nodes = it.number_of_nodes := by
  rw [WebgraphDegreesIter.next_degree] at h
  rcases hr : readTok it.stream with e | p
  · rw [hr] at h
    simp [Bind.bind, Except.bind] at h
  · rw [hr] at h
    obtain ⟨degree, s⟩ := p
    simp only [Bind.bind, Except.bind] at h
    by_cases hd : degree = 0
    · rw [if_pos hd] at h
      simp only [WebgraphDegreesIter.finish, Except.ok.injEq, Prod.mk.injEq] at h
      obtain ⟨h1, h2⟩ := h
      subst h1
      rw [← h2]
      exact ⟨rfl, rfl, rfl, rfl, rfl⟩
    · rw [if_neg hd] at h
      rcases hdr : it.decode_rest degree s with e | s'
      · rw [hdr] at h
        simp [Except.bind] at h
      · rw [hdr] at h
        simp only [Except.bind, WebgraphDegreesIter.finish, Except.ok.injEq,
          Prod.mk.injEq] at h
        obtain ⟨h1, h2⟩ := h
        subst h1
        rw [← h2]
        exact ⟨rfl, rfl, rfl, rfl, rfl⟩

theorem next_successors_ok_shape (it : WebgraphSequentialIter) (res : List Nat)
    (it' : WebgraphSequentialIter) (h : it.next_successors = .ok (res, it')) :
    it'.backrefs = it.backrefs.push res ∧
    it'.min_interval_length = it.min_interval_length ∧
    it'.number_of_nodes = it.number_of_nodes := by
  rw [WebgraphSequentialIter.next_successors] at h
  rcases hg : get_successors_priv it.min_interval_length it.backrefs
      it.backrefs.end_node_id it.stream with e | p
  · rw [hg] at h
    simp [Bind.bind, Except.bind] at h
  · rw [hg] at h
    obtain ⟨r, s⟩ := p
    simp only [Bind.bind, Except.bind, Except.ok.injEq, Prod.mk.injEq] at h
    obtain ⟨h1, h2⟩ := h
    subst h1
    rw [← h2]
    exact ⟨rfl, rfl, rfl⟩

theorem add_mod_ne (a b w : Nat) (hb : 0 < b) (hbw : b < w) :
    (a + b) % w ≠ a % w := by
  intro h
  have h1 : (a + b) % w = (a + 0) % w := by simpa using h
  have h2 : b % w = 0 % w := Nat.ModEq.add_left_cancel' a h1
  rw [Nat.zero_mod] at h2
  have h3 : b % w = b := Nat.mod_eq_of_lt hbw
  omega

theorem degRun_window_invariant (n : Nat) :
    ∀ (it : WebgraphDegreesIter) (ds : List Nat) (it' : WebgraphDegreesIter),
      degRun n it = .ok (ds, it') → 0 < it.compression_window →
      ds.length = n ∧
      it'.node_id = it.node_id + n ∧
      it'.compression_window = it.compression_window ∧
      it'.min_interval_length = it.min_interval_length ∧
      it'.number_of_nodes = it.number_of_nodes ∧
      it'.backrefs.length = it.backrefs.length ∧
      (∀ m : Nat, (∀ j, j < n → (it.node_id + j) % it.compression_window ≠ m) →
        it'.backrefs.getD m 0 = it.backrefs.getD m 0) ∧
      (∀ j, j < n → n ≤ j + it.compression_window →
        it.compression_window < it.backrefs.length →
        it'.backrefs.getD ((it.node_id + j) % it.compression_window) 0 =
          ds.getD j 0) := by
  induction n with
  | zero =>
    intro it ds it' h _
    simp only [degRun, Except.ok.injEq, Prod.mk.injEq] at h
    obtain ⟨h1, h2⟩ := h
    subst h1
    rw [← h2]
    refine ⟨rfl, rfl, rfl, rfl, rfl, rfl, fun m _ => rfl, fun j hj _ _ => by omega⟩
  | succ n ih =>
    intro it ds it' h hw
    rw [degRun] at h
    rcases h1 : it.next_degree with e | p
    · rw [h1] at h
      simp [Bind.bind, Except.bind] at h
    · rw [h1] at h
      obtain ⟨d, it1⟩ := p
      simp only [Bind.bind, Except.bind] at h
      rcases h2 : degRun n it1 with e | q
      · rw [h2] at h
        simp [Except.bind] at h
      · rw [h2] at h
        obtain ⟨ds', it''⟩ := q
        simp only [Except.bind, Except.ok.injEq, Prod.mk.injEq] at h
        obtain ⟨hds, hit⟩ := h
        subst hds
        subst hit
        obtain ⟨hbr, hni, hmil, hcw, hnn⟩ := next_degree_ok_shape it d it1 h1
        have hw1 : 0 < it1.compression_window := by omega
        obtain ⟨il, ini, icw, imil, inn, ilen, ipres, iwrite⟩ := ih it1 ds' it'' h2 hw1
        have hlen1 : it1.backrefs.length = it.backrefs.length := by
          rw [hbr, List.length_set]
        refine ⟨by simp [il], by omega, by omega, by omega, by omega,
          by omega, ?_, ?_⟩
        · intro m hm
          have hstep : it1.backrefs.getD m 0 = it.backrefs.getD m 0 := by
            rw [hbr]
            exact getD_set_ne _ _ _ _ _ (by simpa using hm 0 (by omega))
          rw [ipres m ?_, hstep]
          intro j hj
          rw [hni, hcw]
          have harith : it.node_id + 1 + j = it.node_id + (j + 1) := by omega
          rw [harith]
          exact hm (j + 1) (by omega)
        · intro j hj hjw hwlen
          match j with
          | 0 =>
            have hmlt : it.node_id % it.compression_window <
                it.backrefs.length :=
              lt_trans (Nat.mod_lt _ hw) hwlen
            have hp : it''.backrefs.getD (it.node_id % it.compression_window) 0 =
                it1.backrefs.getD (it.node_id % it.compression_window) 0 := by
              refine ipres _ (fun j' hj' => ?_)
              rw [hni, hcw]
              have harith : it.node_id + 1 + j' = it.node_id + (1 + j') := by omega
              rw [harith]
              exact add_mod_ne it.node_id (1 + j') it.compression_window
                (by omega) (by omega)
            have hq : it1.backrefs.getD (it.node_id % it.compression_window) 0 = d := by
              rw [hbr]
              exact getD_set_eq _ _ _ _ hmlt
            simpa using hp.trans hq
          | Nat.succ j' =>
            have harith : it.node_id + (j' + 1) = it1.node_id + j' := by omega
            rw [harith, ← hcw]
            have := iwrite j' (by omega) (by omega) (by omega)
            rw [this]
            simp [List.getD_cons_succ]

theorem seqRun_window_invariant (n : Nat) :
    ∀ (it : WebgraphSequentialIter) (ls : List (List Nat))
      (it' : WebgraphSequentialIter),
      seqRun n it = .ok (ls, it') → 0 < it.backrefs.data.length →
      ls.length = n ∧
      it'.backrefs.end_node_id = it.backrefs.end_node_id + n ∧
      it'.min_interval_length = it.min_interval_length ∧
      it'.number_of_nodes = it.number_of_nodes ∧
      it'.backrefs.data.length = it.backrefs.data.length ∧
      (∀ m : Nat,
        (∀ j, j < n →
          (it.backrefs.end_node_id + j) % it.backrefs.data.length ≠ m) →
        it'.backrefs.data.getD m [] = it.backrefs.data.getD m []) ∧
      (∀ j, j < n → n ≤ j + it.backrefs.data.length →
        it'.backrefs.data.getD
            ((it.backrefs.end_node_id + j) % it.backrefs.data.length) [] =
          ls.getD j []) := by
  induction n with
  | zero =>
    intro it ls it' h _
    simp only [seqRun, Except.ok.injEq, Prod.mk.injEq] at h
    obtain ⟨h1, h2⟩ := h
    subst h1
    rw [← h2]
    refine ⟨rfl, rfl, rfl, rfl, rfl, fun m _ => rfl, fun j hj _ => by omega⟩
  | succ n ih =>
    intro it ls it' h hL
    rw [seqRun] at h
    rcases h1 : it.next_successors with e | p
    · rw [h1] at h
      simp [Bind.bind, Except.bind] at h
    · rw [h1] at h
      obtain ⟨l, it1⟩ := p
      simp only [Bind.bind, Except.bind] at h
      rcases h2 : seqRun n it1 with e | q
      · rw [h2] at h
        simp [Except.bind] at h
      · rw [h2] at h
        obtain ⟨ls', it''⟩ := q
        simp only [Except.bind, Except.ok.injEq, Prod.mk.injEq] at h
        obtain ⟨hls, hit⟩ := h
        subst hls
        subst hit
        obtain ⟨hbr, hmil, hnn⟩ := next_successors_ok_shape it l it1 h1
        have hdata : it1.backrefs.data =
            it.backrefs.data.set
              (it.backrefs.end_node_id % it.backrefs.data.length) l := by
          rw [hbr]; rfl
        have hend : it1.backrefs.end_node_id = it.backrefs.end_node_id + 1 := by
          rw [hbr]; rfl
        have hlen1 : it1.backrefs.data.length = it.backrefs.data.length := by
          rw [hdata, List.length_set]
        have hL1 : 0 < it1.backrefs.data.length := by omega
        obtain ⟨il, ini, imil, inn, ilen, ipres, iwrite⟩ := ih it1 ls' it'' h2 hL1
        refine ⟨by simp [il], by omega, by omega, by omega, by omega, ?_, ?_⟩
        · intro m hm
          have hstep : it1.backrefs.data.getD m [] =
              it.backrefs.data.getD m [] := by
            rw [hdata]
            exact getD_set_ne _ _ _ _ _ (by simpa using hm 0 (by omega))
          rw [ipres m ?_, hstep]
          intro j hj
          rw [hend, hlen1]
          have harith : it.backrefs.end_node_id + 1 + j =
              it.backrefs.end_node_id + (j + 1) := by omega
          rw [harith]
          exact hm (j + 1) (by omega)
        · intro j hj hjw
          match j with
          | 0 =>
            have hmlt : it.backrefs.end_node_id % it.backrefs.data.length <
                it.backrefs.data.length := Nat.mod_lt _ hL
            have hp : it''.backrefs.data.getD
                  (it.backrefs.end_node_id % it.backrefs.data.length) [] =
                it1.backrefs.data.getD
                  (it.backrefs.end_node_id % it.backrefs.data.length) [] := by
              refine ipres _ (fun j' hj' => ?_)
              rw [hend, hlen1]
              have harith : it.backrefs.end_node_id + 1 + j' =
                  it.backrefs.end_node_id + (1 + j') := by omega
              rw [harith]
              exact add_mod_ne it.backrefs.end_node_id (1 + j')
                it.backrefs.data.length (by omega) (by omega)
            have hq : it1.backrefs.data.getD
                (it.backrefs.end_node_id % it.backrefs.data.length) [] = l := by
              rw [hdata]
              exact getD_set_eq _ _ _ _ hmlt
            simpa using hp.trans hq
          | Nat.succ j' =>
            have harith : it.backrefs.end_node_id + (j' + 1) =
                it1.backrefs.end_node_id + j' := by omega
            rw [harith, ← hlen1]
            have := iwrite j' (by omega) (by omega)
            rw [this]
            simp [List.getD_cons_succ]

/-- C1 (amended): the two iterators index their windows with different moduli.
The successor iterator's circular buffer has `windowsize + 1` slots indexed
modulo `windowsize + 1` (spec-modelled `CircularBuffer`): after a successful
run past node `v = n - r`, `1 ≤ r ≤ windowsize + 1`, slot
`(n - r) mod (windowsize + 1)` — the slot a reference of offset `r` decoded at
node `n` reads — holds the full successor list of node `n - r`.  The
degree-only iterator stores only degrees and indexes its `windowsize + 1`-slot
buffer modulo `windowsize` (`reader_degrees.rs:61,75,136`): slot
`(n - r) mod windowsize` holds the degree of node `n - r` for
`1 ≤ r ≤ windowsize`. -/
theorem window_slot_invariant (mil w N n r : Nat) (s : List Nat)
    (ds : List Nat) (itd : WebgraphDegreesIter)
    (ls : List (List Nat)) (its : WebgraphSequentialIter)
    (hw : 0 < w) (hr1 : 1 ≤ r) (hrn : r ≤ n) :
    (degRun n (WebgraphDegreesIter.new mil w N s) = .ok (ds, itd) → r ≤ w →
      itd.backrefs.getD ((n - r) % w) 0 = ds.getD (n - r) 0) ∧
    (seqRun n (WebgraphSequentialIter.new mil w N s) = .ok (ls, its) →
      r ≤ w + 1 →
      its.backrefs.get (n - r) = ls.getD (n - r) []) := by
  constructor
  · intro h hrw
    obtain ⟨_, _, _, _, _, _, _, hwrite⟩ :=
      degRun_window_invariant n _ ds itd h hw
    have hres := hwrite (n - r) (by omega)
      (by rw [show (WebgraphDegreesIter.new mil w N s).compression_window = w
            from rfl]
          omega)
      (by simp [WebgraphDegreesIter.new])
    simpa [WebgraphDegreesIter.new] using hres
  · intro h hrw
    have hL : 0 <
        (WebgraphSequentialIter.new mil w N s).backrefs.data.length := by
      simp [WebgraphSequentialIter.new, CircularBuffer.new]
    obtain ⟨_, _, _, _, hlen, _, hwrite⟩ :=
      seqRun_window_invariant n _ ls its h hL
    have hres := hwrite (n - r) (by omega)
      (by simp [WebgraphSequentialIter.new, CircularBuffer.new]; omega)
    rw [CircularBuffer.get]
    have hlen' : its.backrefs.data.length = w + 1 := by
      simpa [WebgraphSequentialIter.new, CircularBuffer.new] using hlen
    rw [hlen']
    simpa [WebgraphSequentialIter.new, CircularBuffer.new] using hres

/-- Witness for C1 at `windowsize = 2`, three records `[0], [0], [1, 0, 0, 4]`,
`r = 1`: the degree window holds node 2's degree at slot `2 mod 2 = 0`, the
successor window holds its list `[4]` at slot `2 mod 3 = 2`. -/
theorem window_slot_invariant_witness :
    (WebgraphDegreesIter.mk [1, 0, 0] 3 4 2 3 []).backrefs.getD ((3 - 1) % 2) 0 =
      ([0, 0, 1] : List Nat).getD (3 - 1) 0 ∧
    (WebgraphSequentialIter.mk ⟨[[], [], [4]], 3⟩ 4 3 []).backrefs.get (3 - 1) =
      ([[], [], [4]] : List (List Nat)).getD (3 - 1) [] :=
  ⟨(window_slot_invariant 4 2 3 3 1 [0, 0, 1, 0, 0, 4] [0, 0, 1]
      (WebgraphDegreesIter.mk [1, 0, 0] 3 4 2 3 []) [[], [], [4]]
      (WebgraphSequentialIter.mk ⟨[[], [], [4]], 3⟩ 4 3 [])
      (by decide) (by decide) (by decide)).1 (by decide) (by decide),
   (window_slot_invariant 4 2 3 3 1 [0, 0, 1, 0, 0, 4] [0, 0, 1]
      (WebgraphDegreesIter.mk [1, 0, 0] 3 4 2 3 []) [[], [], [4]]
      (WebgraphSequentialIter.mk ⟨[[], [], [4]], 3⟩ 4 3 [])
      (by decide) (by decide) (by decide)).2 (by decide) (by decide)⟩

/-! ## C3: the degree iterator agrees with the successor iterator -/

theorem readTok_ok_inv {s : List Nat} {t : Nat} {s' : List Nat}
    (h : readTok s = .ok (t, s')) : s = t :: s' := by
  cases s with
  | nil => simp [readTok] at h
  | cons a rest =>
    simp only [readTok, Except.ok.injEq, Prod.mk.injEq] at h
    rw [h.1, h.2]

theorem csub_ok_inv {a b c : Nat} (h : csub a b = .ok c) :
    b ≤ a ∧ c = a - b := by
  rw [csub] at h
  split at h
  · simp only [Except.ok.injEq] at h
    exact ⟨by assumption, h.symm⟩
  · simp at h

theorem csub_eq_ok (a b : Nat) (h : b ≤ a) : csub a b = .ok (a - b) := by
  rw [csub, if_pos h]

theorem sliceTo_ok_inv {l : List Nat} {j : Nat} {seg : List Nat}
    (h : sliceTo l j = .ok seg) :
    j ≤ l.length ∧ seg = l.take j ∧ seg.length = j := by
  rw [sliceTo] at h
  split at h
  · simp only [Except.ok.injEq] at h
    refine ⟨by assumption, h.symm, ?_⟩
    rw [← h, List.length_take]
    omega
  · simp at h

theorem sliceFromTo_ok_inv {l : List Nat} {i j : Nat} {seg : List Nat}
    (h : sliceFromTo l i j = .ok seg) :
    i ≤ j ∧ j ≤ l.length ∧ seg = (l.take j).drop i ∧ seg.length = j - i := by
  rw [sliceFromTo] at h
  split at h
  · simp only [Except.ok.injEq] at h
    rename_i hc
    refine ⟨hc.1, hc.2, h.symm, ?_⟩
    rw [← h, List.length_drop, List.length_take]
    omega
  · simp at h

theorem rangeList_length (start delta : Nat) :
    (rangeList start delta).length = delta := by
  simp [rangeList]

theorem seqBlocksLoop_spec (neighbours : List Nat) :
    ∀ (cnt block_id idx : Nat) (results s : List Nat)
      (out : Nat × List Nat × List Nat),
      seqBlocksLoop neighbours cnt block_id idx results s = .ok out →
      ∃ g, out.2.1.length = results.length + g ∧
        ∀ left, g ≤ left →
          degBlocksLoop cnt block_id idx left s =
            .ok (out.1, left - g, out.2.2) := by
  intro cnt
  induction cnt with
  | zero =>
    intro block_id idx results s out h
    simp only [seqBlocksLoop, Except.ok.injEq] at h
    subst h
    refine ⟨0, by simp, fun left hl => ?_⟩
    simp [degBlocksLoop]
  | succ cnt ih =>
    intro block_id idx results s out h
    rw [seqBlocksLoop] at h
    rcases ht : readTok s with e | p
    · rw [ht] at h
      simp [Bind.bind, Except.bind] at h
    · rw [ht] at h
      obtain ⟨block, s1⟩ := p
      simp only [Bind.bind, Except.bind] at h
      by_cases hpar : block_id % 2 = 0
      · rw [if_pos hpar] at h
        rcases hsl : sliceFromTo neighbours idx (idx + block + 1) with e | seg
        · rw [hsl] at h
          simp [Except.bind] at h
        · rw [hsl] at h
          simp only [Except.bind] at h
          obtain ⟨hij, hjl, hseg, hlseg⟩ := sliceFromTo_ok_inv hsl
          obtain ⟨g, hg, hdeg⟩ := ih (block_id + 1) (idx + block + 1)
            (results ++ seg) s1 out h
          have hlr : (results ++ seg).length = results.length + (block + 1) := by
            rw [List.length_append, hlseg]
            omega
          refine ⟨block + 1 + g, by rw [hg, hlr]; omega, fun left hl => ?_⟩
          rw [degBlocksLoop, ht]
          simp only [Bind.bind, Except.bind, if_pos hpar]
          rw [csub_eq_ok left (block + 1) (by omega)]
          simp only [Except.bind]
          have harith : left - (block + 1) - g = left - (block + 1 + g) := by
            omega
          rw [hdeg (left - (block + 1)) (by omega), harith]
      · rw [if_neg hpar] at h
        obtain ⟨g, hg, hdeg⟩ := ih (block_id + 1) (idx + block + 1)
          results s1 out h
        refine ⟨g, hg, fun left hl => ?_⟩
        rw [degBlocksLoop, ht]
        simp only [Bind.bind, Except.bind, if_neg hpar]
        exact hdeg left hl

theorem seqIntervalsLoop_spec (mil : Nat) :
    ∀ (cnt start : Nat) (results s : List Nat) (out : List Nat × List Nat),
      seqIntervalsLoop mil cnt start results s = .ok out →
      ∃ g, out.1.length = results.length + g ∧
        ∀ left, g ≤ left →
          degIntervalsLoop mil cnt left s = .ok (left - g, out.2) := by
  intro cnt
  induction cnt with
  | zero =>
    intro start results s out h
    simp only [seqIntervalsLoop, Except.ok.injEq] at h
    subst h
    refine ⟨0, by simp, fun left hl => ?_⟩
    simp [degIntervalsLoop]
  | succ cnt ih =>
    intro start results s out h
    rw [seqIntervalsLoop] at h
    rcases ht : readTok s with e | p
    · rw [ht] at h
      simp [Bind.bind, Except.bind] at h
    · rw [ht] at h
      obtain ⟨gap, s1⟩ := p
      simp only [Bind.bind, Except.bind] at h
      rcases ht2 : readTok s1 with e | q
      · rw [ht2] at h
        simp [Except.bind] at h
      · rw [ht2] at h
        obtain ⟨dtok, s2⟩ := q
        simp only [Except.bind] at h
        obtain ⟨g, hg, hdeg⟩ := ih (start + 1 + gap + (dtok + mil))
          (results ++ rangeList (start + 1 + gap) (dtok + mil)) s2 out h
        have hlr : (results ++ rangeList (start + 1 + gap) (dtok + mil)).length =
            results.length + (dtok + mil) := by
          rw [List.length_append, rangeList_length]
        refine ⟨dtok + mil + g, by rw [hg, hlr]; omega, fun left hl => ?_⟩
        rw [degIntervalsLoop, ht]
        simp only [Bind.bind, Except.bind]
        rw [ht2]
        simp only [Except.bind]
        rw [csub_eq_ok left (dtok + mil) (by omega)]
        simp only [Except.bind]
        have harith : left - (dtok + mil) - g = left - (dtok + mil + g) := by
          omega
        rw [hdeg (left - (dtok + mil)) (by omega), harith]

theorem seqResidualsLoop_spec :
    ∀ (cnt extra : Nat) (results s : List Nat) (out : List Nat × List Nat),
      seqResidualsLoop cnt extra results s = .ok out →
      out.1.length = results.length + cnt ∧
      degResidualsLoop cnt s = .ok out.2 := by
  intro cnt
  induction cnt with
  | zero =>
    intro extra results s out h
    simp only [seqResidualsLoop, Except.ok.injEq] at h
    subst h
    exact ⟨by simp, by simp [degResidualsLoop]⟩
  | succ cnt ih =>
    intro extra results s out h
    rw [seqResidualsLoop] at h
    rcases ht : readTok s with e | p
    · rw [ht] at h
      simp [Bind.bind, Except.bind] at h
    · rw [ht] at h
      obtain ⟨gap, s1⟩ := p
      simp only [Bind.bind, Except.bind] at h
      obtain ⟨hgrow, hdeg⟩ := ih (extra + 1 + gap)
        (results ++ [extra + 1 + gap]) s1 out h
      refine ⟨by simp at hgrow; omega, ?_⟩
      rw [degResidualsLoop, ht]
      simp only [Bind.bind, Except.bind]
      exact hdeg

theorem copyPhase_couple (cb : CircularBuffer) (br : List Nat)
    (w nid degree ref_delta : Nat) (s : List Nat) (results₁ s' : List Nat)
    (hseq : seqCopyPhase cb nid ref_delta s = .ok (results₁, s'))
    (hb : results₁.length ≤ degree)
    (hrw : ref_delta ≤ w)
    (hcouple : ∀ r, 1 ≤ r → r ≤ w → r ≤ nid →
      br.getD ((nid - r) % w) 0 = (cb.get (nid - r)).length) :
    degCopyPhase br w nid degree ref_delta s =
      .ok (degree - results₁.length, s') := by
  rw [seqCopyPhase] at hseq
  rw [degCopyPhase]
  by_cases hrd : ref_delta ≠ 0
  · rw [if_pos hrd] at hseq ⊢
    simp only [Bind.bind, Except.bind] at hseq ⊢
    rcases hcs : csub nid ref_delta with e | rnid
    · rw [hcs] at hseq
      simp at hseq
    · rw [hcs] at hseq
      obtain ⟨hdn, hrnid⟩ := csub_ok_inv hcs
      dsimp only at hseq ⊢
      have hrefdeg : br.getD (rnid % w) 0 = (cb.get rnid).length := by
        rw [hrnid]
        exact hcouple ref_delta (Nat.one_le_iff_ne_zero.mpr hrd) hrw hdn
      rcases ht : readTok s with e | p
      · rw [ht] at hseq
        simp at hseq
      · rw [ht] at hseq
        obtain ⟨b, s2⟩ := p
        dsimp only at hseq ⊢
        by_cases hb0 : b = 0
        · rw [if_pos hb0] at hseq ⊢
          simp only [pure, Except.pure, Except.ok.injEq, Prod.mk.injEq] at hseq
          obtain ⟨h1, h2⟩ := hseq
          subst h2
          rw [hrefdeg, ← h1, csub_eq_ok degree (cb.get rnid).length
            (by rw [h1]; exact hb)]
          simp [pure, Except.pure]
        · rw [if_neg hb0] at hseq ⊢
          rcases ht2 : readTok s2 with e | q
          · rw [ht2] at hseq
            simp at hseq
          · rw [ht2] at hseq
            obtain ⟨idx0, s3⟩ := q
            dsimp only at hseq ⊢
            rcases hsl : sliceTo (cb.get rnid) idx0 with e | head
            · rw [hsl] at hseq
              simp at hseq
            · rw [hsl] at hseq
              dsimp only at hseq
              obtain ⟨hidx0, hhead, hlhead⟩ := sliceTo_ok_inv hsl
              rcases hbl : seqBlocksLoop (cb.get rnid) (b - 1) 1 idx0 head s3
                with e | bl
              · rw [hbl] at hseq
                simp at hseq
              · rw [hbl] at hseq
                obtain ⟨idx1, res1, s4⟩ := bl
                dsimp only at hseq
                obtain ⟨g, hg, hdeg⟩ :=
                  seqBlocksLoop_spec (cb.get rnid) (b - 1) 1 idx0 head s3
                    (idx1, res1, s4) hbl
                simp only at hg
                by_cases hpar : b % 2 = 0
                · rw [if_pos hpar] at hseq
                  rcases hsl2 : sliceFromTo (cb.get rnid) idx1
                      (cb.get rnid).length with e | tail
                  · rw [hsl2] at hseq
                    simp at hseq
                  · rw [hsl2] at hseq
                    simp only [pure, Except.pure, Except.ok.injEq,
                      Prod.mk.injEq] at hseq
                    obtain ⟨h1, h2⟩ := hseq
                    subst h2
                    obtain ⟨hij1, hjl1, htail, hltail⟩ := sliceFromTo_ok_inv hsl2
                    have hlr1 : results₁.length =
                        idx0 + g + ((cb.get rnid).length - idx1) := by
                      rw [← h1, List.length_append, hg, hlhead, hltail]
                    rw [csub_eq_ok degree idx0 (by omega)]
                    dsimp only
                    rw [hdeg (degree - idx0) (by omega)]
                    dsimp only
                    rw [if_pos hpar, hrefdeg,
                      csub_eq_ok (cb.get rnid).length idx1 hij1]
                    dsimp only
                    rw [csub_eq_ok (degree - idx0 - g)
                      ((cb.get rnid).length - idx1) (by omega)]
                    simp only [pure, Except.pure, Except.ok.injEq,
                      Prod.mk.injEq]
                    exact ⟨by omega, trivial⟩
                · rw [if_neg hpar] at hseq
                  simp only [pure, Except.pure, Except.ok.injEq,
                    Prod.mk.injEq] at hseq
                  obtain ⟨h1, h2⟩ := hseq
                  subst h2
                  have hlr1 : results₁.length = idx0 + g := by
                    rw [← h1, hg, hlhead]
                  rw [csub_eq_ok degree idx0 (by omega)]
                  dsimp only
                  rw [hdeg (degree - idx0) (by omega)]
                  dsimp only
                  rw [if_neg hpar]
                  simp only [pure, Except.pure, Except.ok.injEq, Prod.mk.injEq]
                  exact ⟨by omega, trivial⟩
  · rw [if_neg hrd] at hseq ⊢
    simp only [pure, Except.pure, Except.ok.injEq, Prod.mk.injEq] at hseq
    obtain ⟨h1, h2⟩ := hseq
    subst h2
    rw [← h1]
    simp [pure, Except.pure]

theorem intervalPhase_couple (mil nid left1 : Nat)
    (results s results₂ s' : List Nat)
    (hseq : seqIntervalPhase mil nid left1 results s = .ok (results₂, s')) :
    ∃ g, results₂.length = results.length + g ∧
      (g ≤ left1 → degIntervalPhase mil left1 s = .ok (left1 - g, s')) := by
  rw [seqIntervalPhase] at hseq
  by_cases hl : left1 ≠ 0
  · rw [if_pos hl] at hseq
    simp only [Bind.bind, Except.bind] at hseq
    rcases ht : readTok s with e | p
    · rw [ht] at hseq
      simp at hseq
    · rw [ht] at hseq
      obtain ⟨k, s1⟩ := p
      dsimp only at hseq
      by_cases hk : k ≠ 0
      · rw [if_pos hk] at hseq
        rcases ht2 : readTok s1 with e | q
        · rw [ht2] at hseq
          simp at hseq
        · rw [ht2] at hseq
          obtain ⟨stok, s2⟩ := q
          dsimp only at hseq
          rcases hao : addOffset nid (nat2int stok) with e | start0
          · rw [hao] at hseq
            simp at hseq
          · rw [hao] at hseq
            dsimp only at hseq
            rcases ht3 : readTok s2 with e | q2
            · rw [ht3] at hseq
              simp at hseq
            · rw [ht3] at hseq
              obtain ⟨dtok, s3⟩ := q2
              dsimp only at hseq
              obtain ⟨g, hg, hdeg⟩ := seqIntervalsLoop_spec mil (k - 1)
                (start0 + (dtok + mil))
                (results ++ rangeList start0 (dtok + mil)) s3 (results₂, s') hseq
              simp only at hg
              have hlr : (results ++ rangeList start0 (dtok + mil)).length =
                  results.length + (dtok + mil) := by
                rw [List.length_append, rangeList_length]
              refine ⟨dtok + mil + g, by omega, fun hle => ?_⟩
              rw [degIntervalPhase, if_pos hl]
              simp only [Bind.bind, Except.bind]
              rw [ht]
              dsimp only
              rw [if_pos hk, ht2]
              dsimp only
              rw [ht3]
              dsimp only
              rw [csub_eq_ok left1 (dtok + mil) (by omega)]
              dsimp only
              rw [hdeg (left1 - (dtok + mil)) (by omega)]
              have harith : left1 - (dtok + mil) - g = left1 - (dtok + mil + g) := by
                omega
              rw [harith]
      · rw [if_neg hk] at hseq
        simp only [pure, Except.pure, Except.ok.injEq, Prod.mk.injEq] at hseq
        obtain ⟨h1, h2⟩ := hseq
        subst h2
        refine ⟨0, by rw [h1]; omega, fun _ => ?_⟩
        rw [degIntervalPhase, if_pos hl]
        simp only [Bind.bind, Except.bind]
        rw [ht]
        dsimp only
        rw [if_neg hk]
        simp [pure, Except.pure]
  · rw [if_neg hl] at hseq
    simp only [pure, Except.pure, Except.ok.injEq, Prod.mk.injEq] at hseq
    obtain ⟨h1, h2⟩ := hseq
    subst h2
    refine ⟨0, by rw [h1]; omega, fun _ => ?_⟩
    rw [degIntervalPhase, if_neg hl]
    simp [pure, Except.pure]

theorem residualPhase_couple (nid left2 : Nat)
    (results s results₃ s' : List Nat)
    (hseq : seqResidualPhase nid left2 results s = .ok (results₃, s')) :
    results₃.length = results.length + left2 ∧
    degResidualPhase left2 s = .ok s' := by
  rw [seqResidualPhase] at hseq
  by_cases hl : left2 ≠ 0
  · rw [if_pos hl] at hseq
    simp only [Bind.bind, Except.bind] at hseq
    rcases ht : readTok s with e | p
    · rw [ht] at hseq
      simp at hseq
    · rw [ht] at hseq
      obtain ⟨rtok, s1⟩ := p
      dsimp only at hseq
      rcases hao : addOffset nid (nat2int rtok) with e | extra
      · rw [hao] at hseq
        simp at hseq
      · rw [hao] at hseq
        dsimp only at hseq
        obtain ⟨hgrow, hdeg⟩ := seqResidualsLoop_spec (left2 - 1) extra
          (results ++ [extra]) s1 (results₃, s') hseq
        simp only [List.length_append, List.length_singleton] at hgrow
        refine ⟨by omega, ?_⟩
        rw [degResidualPhase, if_pos hl]
        simp only [Bind.bind, Except.bind]
        rw [ht]
        dsimp only
        exact hdeg
  · rw [if_neg hl] at hseq
    simp only [pure, Except.pure, Except.ok.injEq, Prod.mk.injEq] at hseq
    obtain ⟨h1, h2⟩ := hseq
    subst h2
    refine ⟨by rw [h1]; omega, ?_⟩
    rw [degResidualPhase, if_neg hl]
    simp [pure, Except.pure]

theorem record_couple (itd : WebgraphDegreesIter) (cb : CircularBuffer)
    (ls s' : List Nat)
    (hseq : get_successors_priv itd.min_interval_length cb itd.node_id
      itd.stream = .ok (ls, s'))
    (href : refOf itd.stream ≤ itd.compression_window)
    (hcouple : ∀ r, 1 ≤ r → r ≤ itd.compression_window → r ≤ itd.node_id →
      itd.backrefs.getD ((itd.node_id - r) % itd.compression_window) 0 =
        (cb.get (itd.node_id - r)).length) :
    itd.next_degree = .ok (ls.length, (itd.finish ls.length s').2) := by
  rw [get_successors_priv] at hseq
  rw [WebgraphDegreesIter.next_degree]
  simp only [Bind.bind, Except.bind] at hseq ⊢
  rcases ht0 : readTok itd.stream with e | p
  · rw [ht0] at hseq
    simp at hseq
  · rw [ht0] at hseq
    obtain ⟨degree, s0⟩ := p
    dsimp only at hseq ⊢
    by_cases hd0 : degree = 0
    · rw [if_pos hd0] at hseq ⊢
      simp only [Except.ok.injEq, Prod.mk.injEq] at hseq
      obtain ⟨h1, h2⟩ := hseq
      subst hd0
      rw [← h1, ← h2]
      rfl
    · rw [if_neg hd0] at hseq ⊢
      rcases ht1 : readTok s0 with e | p1
      · rw [ht1] at hseq
        simp at hseq
      · rw [ht1] at hseq
        obtain ⟨ref_delta, s1⟩ := p1
        dsimp only at hseq
        rcases hcp : seqCopyPhase cb itd.node_id ref_delta s1 with e | pc
        · rw [hcp] at hseq
          simp at hseq
        · rw [hcp] at hseq
          obtain ⟨results₁, s2⟩ := pc
          dsimp only at hseq
          rcases hl1 : csub degree results₁.length with e | left1
          · rw [hl1] at hseq
            simp at hseq
          · rw [hl1] at hseq
            dsimp only at hseq
            obtain ⟨hb1, hleft1⟩ := csub_ok_inv hl1
            rcases hip : seqIntervalPhase itd.min_interval_length itd.node_id
                left1 results₁ s2 with e | pi
            · rw [hip] at hseq
              simp at hseq
            · rw [hip] at hseq
              obtain ⟨results₂, s3⟩ := pi
              dsimp only at hseq
              rcases hl2 : csub degree results₂.length with e | left2
              · rw [hl2] at hseq
                simp at hseq
              · rw [hl2] at hseq
                dsimp only at hseq
                obtain ⟨hb2, hleft2⟩ := csub_ok_inv hl2
                rcases hrp : seqResidualPhase itd.node_id left2 results₂ s3
                  with e | pr
                · rw [hrp] at hseq
                  simp at hseq
                · rw [hrp] at hseq
                  obtain ⟨results₃, s4⟩ := pr
                  simp only [Except.ok.injEq, Prod.mk.injEq] at hseq
                  obtain ⟨hls, hs4⟩ := hseq
                  -- the reference offset of this record is ref_delta
                  have hrd : ref_delta ≤ itd.compression_window := by
                    have h0 : itd.stream = degree :: s0 := readTok_ok_inv ht0
                    have h1 : s0 = ref_delta :: s1 := readTok_ok_inv ht1
                    rw [h0, h1] at href
                    simp only [refOf, if_neg hd0] at href
                    simpa using href
                  -- couple the three phases
                  have hcpl := copyPhase_couple cb itd.backrefs
                    itd.compression_window itd.node_id degree ref_delta s1
                    results₁ s2 hcp hb1 hrd hcouple
                  obtain ⟨g2, hg2, hipl⟩ := intervalPhase_couple
                    itd.min_interval_length itd.node_id left1 results₁ s2
                    results₂ s3 hip
                  have hg2b : g2 ≤ left1 := by omega
                  have hipl2 := hipl hg2b
                  obtain ⟨hr3, hrpl⟩ := residualPhase_couple itd.node_id left2
                    results₂ s3 results₃ s4 hrp
                  -- the degree decoder skips the payload and ends at s4
                  have hdr : itd.decode_rest degree s0 = .ok s4 := by
                    rw [WebgraphDegreesIter.decode_rest]
                    simp only [Bind.bind, Except.bind]
                    rw [ht1]
                    dsimp only
                    rw [show degree - results₁.length = left1 from by omega]
                      at hcpl
                    rw [hcpl]
                    dsimp only
                    rw [show left1 - g2 = left2 from by omega] at hipl2
                    rw [hipl2]
                    dsimp only
                    exact hrpl
                  rw [hdr]
                  dsimp only
                  have hlsd : ls.length = degree := by
                    rw [← hls, List.length_insertionSort]
                    omega
                  rw [hlsd, ← hs4]
                  rfl

theorem next_successors_ok_priv (it : WebgraphSequentialIter) (res : List Nat)
    (it' : WebgraphSequentialIter) (h : it.next_successors = .ok (res, it')) :
    get_successors_priv it.min_interval_length it.backrefs
      it.backrefs.end_node_id it.stream = .ok (res, it'.stream) := by
  rw [WebgraphSequentialIter.next_successors] at h
  rcases hg : get_successors_priv it.min_interval_length it.backrefs
      it.backrefs.end_node_id it.stream with e | p
  · rw [hg] at h
    simp [Bind.bind, Except.bind] at h
  · rw [hg] at h
    obtain ⟨r, s⟩ := p
    simp only [Bind.bind, Except.bind, Except.ok.injEq, Prod.mk.injEq] at h
    obtain ⟨h1, h2⟩ := h
    subst h1
    rw [← h2]

theorem degSeq_run_couple (n : Nat) :
    ∀ (itd : WebgraphDegreesIter) (its : WebgraphSequentialIter)
      (ls : List (List Nat)) (its' : WebgraphSequentialIter),
      seqRun n its = .ok (ls, its') →
      seqRefsBounded itd.compression_window n its = true →
      its.min_interval_length = itd.min_interval_length →
      its.backrefs.end_node_id = itd.node_id →
      its.stream = itd.stream →
      0 < itd.compression_window →
      itd.backrefs.length = itd.compression_window + 1 →
      its.backrefs.data.length = itd.compression_window + 1 →
      (∀ r, 1 ≤ r → r ≤ itd.compression_window → r ≤ itd.node_id →
        itd.backrefs.getD ((itd.node_id - r) % itd.compression_window) 0 =
          (its.backrefs.get (itd.node_id - r)).length) →
      ∃ itd', degRun n itd = .ok (ls.map List.length, itd') ∧
        itd'.stream = its'.stream := by
  induction n with
  | zero =>
    intro itd its ls its' hseq _ _ _ hstream _ _ _ _
    simp only [seqRun, Except.ok.injEq, Prod.mk.injEq] at hseq
    obtain ⟨h1, h2⟩ := hseq
    subst h1
    exact ⟨itd, by simp [degRun], by rw [← h2, ← hstream]⟩
  | succ n ih =>
    intro itd its ls its' hseq href hmil hnid hstream hw hlenb hlencb hcouple
    rw [seqRun] at hseq
    rcases h1 : its.next_successors with e | p
    · rw [h1] at hseq
      simp [Bind.bind, Except.bind] at hseq
    · rw [h1] at hseq
      obtain ⟨l, its1⟩ := p
      simp only [Bind.bind, Except.bind] at hseq
      rcases h2 : seqRun n its1 with e | q
      · rw [h2] at hseq
        simp [Except.bind] at hseq
      · rw [h2] at hseq
        obtain ⟨ls', its2⟩ := q
        simp only [Except.ok.injEq, Prod.mk.injEq] at hseq
        obtain ⟨hls, hits⟩ := hseq
        subst hls
        -- split the well-formedness bit
        rw [seqRefsBounded] at href
        rw [h1] at href
        simp only [Bool.and_eq_true, decide_eq_true_eq] at href
        obtain ⟨hrefhd, hreftl⟩ := href
        -- shape of the two successor states
        obtain ⟨hbr, hmil1, hnn1⟩ := next_successors_ok_shape its l its1 h1
        have hpriv := next_successors_ok_priv its l its1 h1
        rw [hmil, hnid, hstream] at hpriv
        have hrec := record_couple itd its.backrefs l its1.stream hpriv
          (by rw [← hstream]; exact hrefhd) hcouple
        -- the new degree-iterator state
        set itd1 := (itd.finish l.length its1.stream).2 with hitd1
        have hd1br : itd1.backrefs =
            itd.backrefs.set (itd.node_id % itd.compression_window) l.length := rfl
        have hd1ni : itd1.node_id = itd.node_id + 1 := rfl
        have hd1mil : itd1.min_interval_length = itd.min_interval_length := rfl
        have hd1cw : itd1.compression_window = itd.compression_window := rfl
        have hd1st : itd1.stream = its1.stream := rfl
        have hs1end : its1.backrefs.end_node_id = its.backrefs.end_node_id + 1 := by
          rw [hbr]; rfl
        have hs1data : its1.backrefs.data =
            its.backrefs.data.set
              (its.backrefs.end_node_id % its.backrefs.data.length) l := by
          rw [hbr]; rfl
        have hs1len : its1.backrefs.data.length = its.backrefs.data.length := by
          rw [hs1data, List.length_set]
        -- re-establish the window coupling after one record
        have hcouple1 : ∀ r, 1 ≤ r → r ≤ itd1.compression_window →
            r ≤ itd1.node_id →
            itd1.backrefs.getD ((itd1.node_id - r) % itd1.compression_window) 0 =
              (its1.backrefs.get (itd1.node_id - r)).length := by
          intro r hr1 hrw hrn
          rw [hd1cw] at hrw
          rw [hd1ni] at hrn ⊢
          rw [hd1cw, hd1br]
          rcases Nat.eq_or_lt_of_le hr1 with hr1' | hr2
          · -- r = 1: both slots were just written
            have hreq : r = 1 := hr1'.symm
            subst hreq
            have hx : itd.node_id + 1 - 1 = itd.node_id := by omega
            rw [hx]
            have hslot : itd.node_id % itd.compression_window <
                itd.backrefs.length := by
              rw [hlenb]
              have := Nat.mod_lt itd.node_id hw
              omega
            rw [getD_set_eq _ _ _ _ hslot]
            rw [CircularBuffer.get, hs1len, hs1data, hnid]
            have hslot2 : itd.node_id % its.backrefs.data.length <
                its.backrefs.data.length :=
              Nat.mod_lt _ (by rw [hlencb]; omega)
            rw [getD_set_eq _ _ _ _ hslot2]
          · -- r ≥ 2: both slots are untouched by the new record
            have hx : itd.node_id + 1 - r = itd.node_id - (r - 1) := by omega
            rw [hx]
            set x := itd.node_id - (r - 1) with hxdef
            have hy : itd.node_id = x + (r - 1) := by omega
            have hne1 : itd.node_id % itd.compression_window ≠
                x % itd.compression_window := by
              rw [hy]
              exact add_mod_ne x (r - 1) _ (by omega) (by omega)
            rw [getD_set_ne _ _ _ _ _ hne1]
            have hrhs : its1.backrefs.get x = its.backrefs.get x := by
              rw [CircularBuffer.get, CircularBuffer.get, hs1len, hs1data, hnid]
              have hne2 : itd.node_id % its.backrefs.data.length ≠
                  x % its.backrefs.data.length := by
                rw [hy]
                exact add_mod_ne x (r - 1) _ (by omega) (by omega)
              rw [getD_set_ne _ _ _ _ _ hne2]
            rw [hrhs]
            exact hcouple (r - 1) (by omega) (by omega) (by omega)
        -- IH on the remaining records
        obtain ⟨itd', hdeg, hstfin⟩ := ih itd1 its1 ls' its2 h2
          (by rw [hd1cw]; exact hreftl)
          (by rw [hd1mil, hmil1, hmil])
          (by rw [hd1ni, hs1end, hnid])
          (by rw [hd1st])
          (by rw [hd1cw]; exact hw)
          (by rw [hd1br, List.length_set, hd1cw]; exact hlenb)
          (by rw [hs1len, hd1cw]; exact hlencb)
          hcouple1
        refine ⟨itd', ?_, by rw [← hits]; exact hstfin⟩
        rw [degRun]
        simp only [Bind.bind, Except.bind]
        rw [hrec]
        dsimp only
        rw [hdeg]
        simp

/-- C3: on a well-formed stream — one a successful sequential decode accepts,
with every reference offset within the window (spec §3: `require r ≤
windowsize`) — the degree-only iterator succeeds too, reports for every node
exactly the length of the successor list the full sequential iterator produces
for that node, consumes the same code words, and the sum of the reported
degrees is the total number of emitted successors `M`. -/
theorem degree_iter_agrees (mil w N : Nat) (s : List Nat)
    (ls : List (List Nat)) (its' : WebgraphSequentialIter)
    (hw : 0 < w)
    (hseq : seqRun N (WebgraphSequentialIter.new mil w N s) = .ok (ls, its'))
    (href : seqRefsBounded w N (WebgraphSequentialIter.new mil w N s) = true) :
    ∃ itd', degRun N (WebgraphDegreesIter.new mil w N s) =
        .ok (ls.map List.length, itd') ∧
      itd'.stream = its'.stream ∧
      (ls.map List.length).sum = ls.flatten.length := by
  obtain ⟨itd', hdeg, hst⟩ := degSeq_run_couple N
    (WebgraphDegreesIter.new mil w N s) (WebgraphSequentialIter.new mil w N s)
    ls its' hseq (by exact href) rfl rfl rfl hw (by simp [WebgraphDegreesIter.new])
    (by simp [WebgraphSequentialIter.new, CircularBuffer.new,
      WebgraphDegreesIter.new])
    (by intro r hr1 hrw hr0
        simp only [WebgraphDegreesIter.new] at hr0
        omega)
  exact ⟨itd', hdeg, hst, (List.length_flatten ls).symm⟩

/-- Witness for C3: a two-node graph where node 1 back-references node 0 and
copies its whole list `[2, 4]`; the degree iterator reports `[2, 2]`. -/
theorem degree_iter_agrees_witness :
    ∃ itd', degRun 2 (WebgraphDegreesIter.new 0 7 2 [2, 0, 0, 4, 1, 2, 1, 0]) =
        .ok (([[2, 4], [2, 4]] : List (List Nat)).map List.length, itd') ∧
      itd'.stream =
        (WebgraphSequentialIter.mk
          ⟨[[2, 4], [2, 4], [], [], [], [], [], []], 2⟩ 0 2 []).stream ∧
      (([[2, 4], [2, 4]] : List (List Nat)).map List.length).sum =
        ([[2, 4], [2, 4]] : List (List Nat)).flatten.length :=
  degree_iter_agrees 0 7 2 [2, 0, 0, 4, 1, 2, 1, 0] [[2, 4], [2, 4]]
    (WebgraphSequentialIter.mk ⟨[[2, 4], [2, 4], [], [], [], [], [], []], 2⟩ 0 2 [])
    (by decide) (by decide) (by decide)

/-! ## C5: `invert_in_place` computes the inverse permutation -/

/-- A pair of mutually inverse self-maps of `{0, .., n-1}`: the functional
contents of a permutation array and its inverse. -/
structure PermOn (n : Nat) (f g : Nat → Nat) : Prop where
  f_lt : ∀ x, x < n → f x < n
  g_lt : ∀ x, x < n → g x < n
  gf : ∀ x, x < n → g (f x) = x
  fg : ∀ x, x < n → f (g x) = x

theorem PermOn.iter_lt {n : Nat} {f g : Nat → Nat} (h : PermOn n f g) :
    ∀ (k x : Nat), x < n → f^[k] x < n := by
  intro k
  induction k with
  | zero => intro x hx; simpa using hx
  | succ k ih =>
    intro x hx
    rw [Function.iterate_succ_apply]
    exact ih (f x) (h.f_lt x hx)

theorem PermOn.gf_iter {n : Nat} {f g : Nat → Nat} (h : PermOn n f g) :
    ∀ (k x : Nat), x < n → g^[k] (f^[k] x) = x := by
  intro k
  induction k with
  | zero => intro x _; simp
  | succ k ih =>
    intro x hx
    rw [Function.iterate_succ_apply, Function.iterate_succ_apply']
    rw [h.gf (f^[k] x) (h.iter_lt k x hx)]
    exact ih x hx

theorem PermOn.exists_return {n : Nat} {f g : Nat → Nat} (h : PermOn n f g)
    (x : Nat) (hx : x < n) : ∃ c, 0 < c ∧ c ≤ n ∧ f^[c] x = x := by
  have hmap : ∀ k ∈ Finset.range (n + 1), f^[k] x ∈ Finset.range n := by
    intro k _
    simp only [Finset.mem_range]
    exact h.iter_lt k x hx
  have hcard : (Finset.range n).card < (Finset.range (n + 1)).card := by
    simp
  obtain ⟨k1, hk1, k2, hk2, hne, heq⟩ :=
    Finset.exists_ne_map_eq_of_card_lt_of_maps_to hcard hmap
  simp only [Finset.mem_range] at hk1 hk2
  rcases Nat.lt_or_ge k1 k2 with hlt | hge
  · refine ⟨k2 - k1, by omega, by omega, ?_⟩
    have hsplit : f^[k2] x = f^[k1] (f^[k2 - k1] x) := by
      rw [← Function.iterate_add_apply]
      congr 1
      omega
    have hx2 : f^[k2 - k1] x < n := h.iter_lt _ x hx
    have := h.gf_iter k1 (f^[k2 - k1] x) hx2
    rw [← hsplit, ← heq, h.gf_iter k1 x hx] at this
    exact this.symm
  · have hlt2 : k2 < k1 := by omega
    refine ⟨k1 - k2, by omega, by omega, ?_⟩
    have hsplit : f^[k1] x = f^[k2] (f^[k1 - k2] x) := by
      rw [← Function.iterate_add_apply]
      congr 1
      omega
    have hx2 : f^[k1 - k2] x < n := h.iter_lt _ x hx
    have := h.gf_iter k2 (f^[k1 - k2] x) hx2
    rw [← hsplit, heq, h.gf_iter k2 x hx] at this
    exact this.symm

theorem walk_distinct {f : Nat → Nat} (i : Nat) (D : Nat)
    (hnot : ∀ s, s < D → f^[s] i ≠ f^[D] i) :
    ∀ s1 s2, s1 < s2 → s2 ≤ D → f^[s1] i ≠ f^[s2] i := by
  intro s1 s2 hs12 hs2 heq
  have hsplit : f^[D - s2] (f^[s1] i) = f^[(D - s2) + s1] i := by
    rw [← Function.iterate_add_apply]
  have hsplit2 : f^[D - s2] (f^[s2] i) = f^[D] i := by
    rw [← Function.iterate_add_apply]
    congr 1
    omega
  have := hnot ((D - s2) + s1) (by omega)
  rw [← hsplit] at this
  rw [heq, hsplit2] at this
  exact this rfl

theorem g_orbit {n : Nat} {f g : Nat → Nat} (h : PermOn n f g)
    (m : Nat) (hm : m < n) (c : Nat) (hc0 : 0 < c) (hcc : f^[c] m = m) :
    ∀ k, ∃ s, s < c ∧ g^[k] m = f^[s] m := by
  intro k
  induction k with
  | zero => exact ⟨0, hc0, by simp⟩
  | succ k ih =>
    obtain ⟨s, hs, hgk⟩ := ih
    rw [Function.iterate_succ_apply', hgk]
    match s with
    | 0 =>
      refine ⟨c - 1, by omega, ?_⟩
      have hc1 : f (f^[c - 1] m) = m := by
        have h2 := Function.iterate_succ_apply' f (c - 1) m
        rw [show (c - 1).succ = c from by omega] at h2
        rw [← h2, hcc]
      simp only [Function.iterate_zero_apply]
      conv_lhs => rw [← hc1]
      rw [h.gf (f^[c - 1] m) (h.iter_lt _ m hm)]
    | Nat.succ s' =>
      refine ⟨s', by omega, ?_⟩
      rw [Function.iterate_succ_apply']
      exact h.gf (f^[s'] m) (h.iter_lt _ m hm)

theorem inot_inot (x : Int) : inot (inot x) = x := by
  unfold inot
  ring

theorem inot_neg (x : Nat) : inot ((x : Nat) : Int) < 0 := by
  unfold inot
  omega

theorem cycleLoop_spec {n : Nat} {f g : Nat → Nat} (h : PermOn n f g)
    (m : Nat) (hm : m < n) :
    ∀ (d fuel : Nat) (a : List Int) (i k : Nat),
      a.length = n → i < n → k < n → f k = i →
      1 ≤ d → d < fuel →
      f^[d] i = m →
      (∀ s, s < d → f^[s] i ≠ m) →
      (∀ s, s < d → a.getD (f^[s] i) 0 = ((f (f^[s] i) : Nat) : Int)) →
      (cycleLoop fuel a m i k).length = n ∧
      (∀ y, y < n → y ≠ m → (∀ s, s < d → f^[s] i ≠ y) →
        (cycleLoop fuel a m i k).getD y 0 = a.getD y 0) ∧
      (∀ s, s < d → (cycleLoop fuel a m i k).getD (f^[s] i) 0 =
        inot ((g (f^[s] i) : Nat) : Int)) ∧
      (cycleLoop fuel a m i k).getD m 0 = ((g m : Nat) : Int) := by
  intro d
  induction d with
  | zero => omega
  | succ d ih =>
    intro fuel a i k hlen hi hk hfk hd1 hdf hret hnotm hwalk
    obtain ⟨fuel', rfl⟩ : ∃ fuel', fuel = fuel' + 1 :=
      ⟨fuel - 1, by omega⟩
    have hji : a.getD i 0 = ((f i : Nat) : Int) := by
      have := hwalk 0 (by omega)
      simpa using this
    have hkgi : k = g i := by
      rw [← hfk, h.gf k hk]
    rw [cycleLoop]
    rcases Nat.eq_zero_or_pos d with hd0 | hdpos
    · -- base case: d + 1 = 1, f i = m
      subst hd0
      have hfi : f i = m := by
        have := hret
        simpa using this
      have him : i ≠ m := by
        have := hnotm 0 (by omega)
        simpa using this
      rw [hji]
      rw [if_pos (show ((f i : Nat) : Int) = ((m : Nat) : Int) by
        exact_mod_cast hfi)]
      have hlen1 : (a.set i (inot (k : Int))).length = n := by
        rw [List.length_set, hlen]
      refine ⟨by rw [List.length_set, hlen1], ?_, ?_, ?_⟩
      · intro y hy hym hyw
        have hyi : i ≠ y := by
          have := hyw 0 (by omega)
          simpa using this
        rw [getD_set_ne _ _ _ _ _ (fun hh => hym hh.symm),
          getD_set_ne _ _ _ _ _ hyi]
      · intro s hs
        have hs0 : s = 0 := by omega
        subst hs0
        simp only [Function.iterate_zero_apply]
        rw [getD_set_ne _ _ _ _ _ (fun hh => him hh.symm),
          getD_set_eq _ _ _ _ (by omega), hkgi]
      · have hgm : g m = i := by
          rw [← hfi, h.gf i hi]
        rw [getD_set_eq _ _ _ _ (by rw [List.length_set]; omega), hgm]
    · -- step case: f i ≠ m, recurse along the cycle
      have hfi_ne : f i ≠ m := by
        have := hnotm 1 (by omega)
        simpa using this
      have hwd : ∀ s1 s2, s1 < s2 → s2 ≤ d + 1 → f^[s1] i ≠ f^[s2] i := by
        refine walk_distinct i (d + 1) ?_
        intro s hs
        rw [hret]
        exact hnotm s hs
      rw [hji]
      rw [if_neg (by
        intro hh
        apply hfi_ne
        exact_mod_cast hh)]
      have htn : ((f i : Nat) : Int).toNat = f i := by simp
      rw [htn]
      have hihyp : ∀ s, s < d → f^[s] (f i) ≠ i := by
        intro s hs
        have := hwd 0 (s + 1) (by omega) (by omega)
        rw [Function.iterate_zero_apply] at this
        rw [← Function.iterate_succ_apply]
        exact fun hh => this hh.symm
      obtain ⟨ihlen, ihpres, ihwrite, ihm⟩ := ih fuel' (a.set i (inot (k : Int)))
        (f i) i
        (by rw [List.length_set, hlen]) (h.f_lt i hi) hi rfl hdpos (by omega)
        (by rw [← Function.iterate_succ_apply]; exact hret)
        (by intro s hs
            rw [← Function.iterate_succ_apply]
            exact hnotm (s + 1) (by omega))
        (by intro s hs
            rw [getD_set_ne _ _ _ _ _ (fun hh => hihyp s hs hh.symm)]
            rw [← Function.iterate_succ_apply]
            exact hwalk (s + 1) (by omega))
      refine ⟨ihlen, ?_, ?_, ihm⟩
      · intro y hy hym hyw
        have hyi : i ≠ y := by
          have := hyw 0 (by omega)
          simpa using this
        rw [ihpres y hy hym (by
          intro s hs
          rw [← Function.iterate_succ_apply]
          exact hyw (s + 1) (by omega))]
        rw [getD_set_ne _ _ _ _ _ hyi]
      · intro s hs
        match s with
        | 0 =>
          simp only [Function.iterate_zero_apply]
          rw [ihpres i hi (by
              have := hnotm 0 (by omega)
              simpa using this)
            (fun s' hs' => hihyp s' hs')]
          rw [getD_set_eq _ _ _ _ (by omega), hkgi]
        | Nat.succ s' =>
          rw [Function.iterate_succ_apply]
          exact ihwrite s' (by omega)

/-- Node `x`'s cycle has already been walked once the outer scan has passed
some element of its orbit. -/
def processed (f : Nat → Nat) (m x : Nat) : Prop := ∃ k, f^[k] x < m

/-- The outer-loop invariant of `invert_in_place` after the scan has handled
indices `0, .., m - 1`: processed slots below `m` hold the inverse, processed
slots at or above `m` hold the bitwise-complemented inverse (the visited
marker), untouched slots still hold the original permutation. -/
def InvariantAt (n : Nat) (f g : Nat → Nat) (m : Nat) (a : List Int) : Prop :=
  a.length = n ∧
  ∀ x, x < n →
    (x < m → a.getD x 0 = ((g x : Nat) : Int)) ∧
    (m ≤ x → processed f m x → a.getD x 0 = inot ((g x : Nat) : Int)) ∧
    (m ≤ x → ¬ processed f m x → a.getD x 0 = ((f x : Nat) : Int))

theorem invariant_step {n : Nat} {f g : Nat → Nat} (h : PermOn n f g)
    (m : Nat) (hm : m < n) (a : List Int) (ha : InvariantAt n f g m a) :
    InvariantAt n f g (m + 1) (invertStep a m) := by
  obtain ⟨hlen, inv⟩ := ha
  by_cases hP : processed f m m
  · -- the cycle of m was already walked: unmark the slot
    have ham : a.getD m 0 = inot ((g m : Nat) : Int) :=
      (inv m hm).2.1 (le_refl m) hP
    have hstep : invertStep a m = a.set m ((g m : Nat) : Int) := by
      rw [invertStep, ham, if_pos (inot_neg (g m)), inot_inot]
    rw [hstep]
    refine ⟨by rw [List.length_set, hlen], ?_⟩
    intro x hx
    refine ⟨?_, ?_, ?_⟩
    · intro hxm1
      rcases Nat.lt_or_ge x m with hxm | hxm
      · rw [getD_set_ne _ _ _ _ _ (by omega)]
        exact (inv x hx).1 hxm
      · have hxeq : x = m := by omega
        subst hxeq
        rw [getD_set_eq _ _ _ _ (by omega)]
    · intro hxm1 hproc
      rw [getD_set_ne _ _ _ _ _ (by omega)]
      have hpm : processed f m x := by
        by_contra hnp
        obtain ⟨k2, hk2⟩ := hproc
        have hk2m : f^[k2] x = m := by
          have h4 : ¬ f^[k2] x < m := fun hh => hnp ⟨k2, hh⟩
          omega
        obtain ⟨k3, hk3⟩ := hP
        refine hnp ⟨k3 + k2, ?_⟩
        rw [Function.iterate_add_apply, hk2m]
        exact hk3
      exact (inv x hx).2.1 (by omega) hpm
    · intro hxm1 hnproc
      rw [getD_set_ne _ _ _ _ _ (by omega)]
      refine (inv x hx).2.2 (by omega) ?_
      rintro ⟨k2, hk2⟩
      exact hnproc ⟨k2, by omega⟩
  · have ham : a.getD m 0 = ((f m : Nat) : Int) :=
      (inv m hm).2.2 (le_refl m) hP
    by_cases hfix : f m = m
    · -- fixed point: nothing to do
      have hgfix : g m = m := by
        conv_lhs => rw [← hfix]
        exact h.gf m hm
      have hgiter : ∀ k2, g^[k2] m = m := by
        intro k2
        induction k2 with
        | zero => simp
        | succ k2 ih => rw [Function.iterate_succ_apply', ih, hgfix]
      have hstep : invertStep a m = a := by
        rw [invertStep, ham, if_neg (by omega), if_neg (by simp [hfix])]
      rw [hstep]
      refine ⟨hlen, ?_⟩
      intro x hx
      refine ⟨?_, ?_, ?_⟩
      · intro hxm1
        rcases Nat.lt_or_ge x m with hxm | hxm
        · exact (inv x hx).1 hxm
        · have hxeq : x = m := by omega
          subst hxeq
          rw [ham, hfix, hgfix]
      · intro hxm1 hproc
        have hpm : processed f m x := by
          by_contra hnp
          obtain ⟨k2, hk2⟩ := hproc
          have hk2m : f^[k2] x = m := by
            have h4 : ¬ f^[k2] x < m := fun hh => hnp ⟨k2, hh⟩
            omega
          have hxg : x = m := by
            have := h.gf_iter k2 x hx
            rw [hk2m, hgiter k2] at this
            omega
          omega
        exact (inv x hx).2.1 (by omega) hpm
      · intro hxm1 hnproc
        refine (inv x hx).2.2 (by omega) ?_
        rintro ⟨k2, hk2⟩
        exact hnproc ⟨k2, by omega⟩
    · -- walk the cycle of m
      obtain ⟨cw, hcw0, hcwn, hcwret⟩ := h.exists_return m hm
      have hexP : ∃ c, 0 < c ∧ f^[c] m = m := ⟨cw, hcw0, hcwret⟩
      have hcspec := Nat.find_spec hexP
      have hcmin : ∀ c', c' < Nat.find hexP → ¬(0 < c' ∧ f^[c'] m = m) :=
        fun c' hc' => Nat.find_min hexP hc'
      have hcle : Nat.find hexP ≤ cw := Nat.find_min' hexP ⟨hcw0, hcwret⟩
      set c := Nat.find hexP with hcdef
      have hc2 : 2 ≤ c := by
        by_contra hcc
        have hc1 : c = 1 := by omega
        have := hcspec.2
        rw [hc1] at this
        simp only [Function.iterate_one] at this
        exact hfix this
      have hretw : f^[c - 1] (f m) = m := by
        rw [← Function.iterate_succ_apply]
        rw [show (c - 1).succ = c from by omega]
        exact hcspec.2
      have hnotmw : ∀ s, s < c - 1 → f^[s] (f m) ≠ m := by
        intro s hs hh
        rw [← Function.iterate_succ_apply] at hh
        exact hcmin (s + 1) (by omega) ⟨by omega, hh⟩
      have hwalkw : ∀ s, s < c - 1 →
          a.getD (f^[s] (f m)) 0 = ((f (f^[s] (f m)) : Nat) : Int) := by
        intro s hs
        rw [← Function.iterate_succ_apply]
        have hy : f^[s + 1] m < n := h.iter_lt (s + 1) m hm
        have hynp : ¬ processed f m (f^[s + 1] m) := by
          rintro ⟨k2, hk2⟩
          refine hP ⟨k2 + (s + 1), ?_⟩
          rw [Function.iterate_add_apply]
          exact hk2
        have hyge : m ≤ f^[s + 1] m := by
          by_contra hyl
          refine hynp ⟨0, ?_⟩
          simp only [Function.iterate_zero_apply]
          omega
        exact (inv _ hy).2.2 hyge hynp
      have hstep : invertStep a m =
          cycleLoop (a.length + 1) a m (f m) m := by
        rw [invertStep, ham, if_neg (by omega),
          if_pos (show ((f m : Nat) : Int) ≠ ((m : Nat) : Int) from by
            intro hh
            exact hfix (by exact_mod_cast hh))]
        simp
      obtain ⟨Rlen, Rpres, Rwrite, Rm⟩ := cycleLoop_spec h m hm
        (c - 1) (a.length + 1) a (f m) m hlen (h.f_lt m hm) hm rfl
        (by omega) (by omega) hretw hnotmw hwalkw
      rw [hstep]
      refine ⟨Rlen, ?_⟩
      intro x hx
      refine ⟨?_, ?_, ?_⟩
      · intro hxm1
        rcases Nat.lt_or_ge x m with hxm | hxm
        · rw [Rpres x hx (by omega) (by
            intro s hs hh
            refine hP ⟨s + 1, ?_⟩
            rw [Function.iterate_succ_apply]
            omega)]
          exact (inv x hx).1 hxm
        · have hxeq : x = m := by omega
          subst hxeq
          exact Rm
      · intro hxm1 hproc
        by_cases hxw : ∃ s, s < c - 1 ∧ f^[s] (f m) = x
        · obtain ⟨s, hs, hsx⟩ := hxw
          rw [← hsx]
          exact Rwrite s hs
        · push_neg at hxw
          rw [Rpres x hx (by omega) (fun s hs => hxw s hs)]
          have hpm : processed f m x := by
            by_contra hnp
            obtain ⟨k2, hk2⟩ := hproc
            have hk2m : f^[k2] x = m := by
              have h4 : ¬ f^[k2] x < m := fun hh => hnp ⟨k2, hh⟩
              omega
            have hxg : x = g^[k2] m := by
              rw [← hk2m, h.gf_iter k2 x hx]
            obtain ⟨s, hsc, hgs⟩ := g_orbit h m hm (c)
              hcspec.1 hcspec.2 k2
            rw [hgs] at hxg
            match s, hsc, hxg with
            | 0, hsc, hxg =>
              simp only [Function.iterate_zero_apply] at hxg
              omega
            | Nat.succ s', hsc, hxg =>
              refine hxw s' (by omega) ?_
              rw [Function.iterate_succ_apply] at hxg
              exact hxg.symm
          exact (inv x hx).2.1 (by omega) hpm
      · intro hxm1 hnproc
        have hxw : ∀ s, s < c - 1 → f^[s] (f m) ≠ x := by
          intro s hs hh
          apply hnproc
          refine ⟨c - (s + 1), ?_⟩
          rw [← hh, ← Function.iterate_succ_apply, ← Function.iterate_add_apply]
          rw [show c - (s + 1) + (s + 1) = c from by
            omega]
          rw [hcspec.2]
          omega
        rw [Rpres x hx (by omega) hxw]
        refine (inv x hx).2.2 (by omega) ?_
        rintro ⟨k2, hk2⟩
        exact hnproc ⟨k2, by omega⟩

theorem getD_map_range (fn : Nat → Int) (n x : Nat) (hx : x < n) :
    ((List.range n).map fn).getD x 0 = fn x := by
  rw [List.getD_eq_getElem?_getD, List.getElem?_eq_getElem (by simpa using hx)]
  simp

theorem invariant_init {n : Nat} (f g : Nat → Nat) :
    InvariantAt n f g 0 ((List.range n).map (fun x => ((f x : Nat) : Int))) := by
  refine ⟨by simp, ?_⟩
  intro x hx
  refine ⟨by omega, ?_, ?_⟩
  · rintro _ ⟨k, hk⟩
    omega
  · intro _ _
    exact getD_map_range _ n x hx

theorem invariant_foldl {n : Nat} {f g : Nat → Nat} (h : PermOn n f g)
    (a : List Int) (h0 : InvariantAt n f g 0 a) (m : Nat) (hm : m ≤ n) :
    InvariantAt n f g m ((List.range m).foldl invertStep a) := by
  induction m with
  | zero => simpa using h0
  | succ m ih =>
    rw [List.range_succ, List.foldl_append]
    simp only [List.foldl_cons, List.foldl_nil]
    exact invariant_step h m (by omega) _ (ih (by omega))

theorem invariant_final {n : Nat} {f g : Nat → Nat} (a : List Int)
    (ha : InvariantAt n f g n a) :
    a = (List.range n).map (fun x => ((g x : Nat) : Int)) := by
  obtain ⟨hlen, inv⟩ := ha
  apply List.ext_getElem
  · simp [hlen]
  · intro i h1 h2
    have hi : i < n := by rw [hlen] at h1; exact h1
    have hgi := (inv i hi).1 hi
    rw [List.getD_eq_getElem?_getD, List.getElem?_eq_getElem h1] at hgi
    simp only [Option.getD_some] at hgi
    simp only [List.getElem_map, List.getElem_range]
    exact hgi

theorem invert_in_place_eq {n : Nat} {f g : Nat → Nat} (h : PermOn n f g) :
    invert_in_place ((List.range n).map (fun x => ((f x : Nat) : Int))) =
      (List.range n).map (fun x => ((g x : Nat) : Int)) := by
  have hlen : ((List.range n).map (fun x => ((f x : Nat) : Int))).length = n := by
    simp
  rw [invert_in_place, hlen]
  exact invariant_final _
    (invariant_foldl h _ (invariant_init f g) n (le_refl n))

theorem PermOn.symm {n : Nat} {f g : Nat → Nat} (h : PermOn n f g) :
    PermOn n g f :=
  ⟨h.g_lt, h.f_lt, h.fg, h.gf⟩

/-- C5: for every permutation `f` of `0..n` with two-sided inverse `g`,
`invert_in_place` applied to the array `[f 0, .., f (n-1)]` returns the array
of the inverse `[g 0, .., g (n-1)]`; consequently the output `w` satisfies
`w[f i] = i` for every `i < n`, and applying `invert_in_place` twice restores
the original array. -/
theorem invert_in_place_correct {n : Nat} {f g : Nat → Nat}
    (h : PermOn n f g) :
    invert_in_place ((List.range n).map (fun x => ((f x : Nat) : Int))) =
      (List.range n).map (fun x => ((g x : Nat) : Int)) ∧
    (∀ i, i < n →
      (invert_in_place
          ((List.range n).map (fun x => ((f x : Nat) : Int)))).getD (f i) 0 =
        (i : Int)) ∧
    invert_in_place (invert_in_place
        ((List.range n).map (fun x => ((f x : Nat) : Int)))) =
      (List.range n).map (fun x => ((f x : Nat) : Int)) := by
  have h1 := invert_in_place_eq h
  refine ⟨h1, ?_, ?_⟩
  · intro i hi
    rw [h1, getD_map_range _ n (f i) (h.f_lt i hi), h.gf i hi]
  · rw [h1, invert_in_place_eq h.symm]

theorem invert_in_place_correct_witness :
    (invert_in_place ((List.range 3).map
        (fun x => (([1, 2, 0].getD x 0 : Nat) : Int))) =
      (List.range 3).map (fun x => (([2, 0, 1].getD x 0 : Nat) : Int))) ∧
    (∀ i, i < 3 →
      (invert_in_place ((List.range 3).map
          (fun x => (([1, 2, 0].getD x 0 : Nat) : Int)))).getD
        ([1, 2, 0].getD i 0) 0 = (i : Int)) ∧
    invert_in_place (invert_in_place ((List.range 3).map
        (fun x => (([1, 2, 0].getD x 0 : Nat) : Int)))) =
      (List.range 3).map (fun x => (([1, 2, 0].getD x 0 : Nat) : Int)) :=
  @invert_in_place_correct 3 (fun x => [1, 2, 0].getD x 0)
    (fun x => [2, 0, 1].getD x 0)
    ⟨by decide, by decide, by decide, by decide⟩
